import Mathlib

/-! Shallow embedding of `src/data/criteo/CriteoDataLoader.py` (GDCN repository):
the two-pass Criteo caching pipeline (`CriteoDataset.__get_feat_mapper`,
`__yield_buffer`, `__build_cache`, `__getitem__`, reader metadata) and the
numeric discretizer `convert_numeric_feature`.

Modelling conventions:
* A text file is a `List String` of its lines, each without its trailing
  newline (the source iterates lines and strips trailing newlines with
  `rstrip`).
* Python `dict` / `defaultdict` values are insertion-ordered association
  lists (`List (key × value)` with unique keys maintained by the update
  operations).  Python's set-comprehension reordering of tokens is
  unspecified hash order; here the deterministic first-occurrence order is
  used.  No proved claim depends on the enumeration order.
* The LMDB store is an insertion-ordered association list from byte-string
  keys (`List Nat`, one `Nat` per byte) to values; `txn.put` replaces an
  existing key or appends a new one; `txn.stat()['entries']` is the number
  of keys.  Record values (`np.uint32` arrays produced by `tobytes` and
  read back by `np.frombuffer`, an exact inverse pair) are modelled as the
  `List Nat` of array slots.
* Python floats are modelled as exact rationals: every concrete numeric
  string appearing in the claims is exactly representable and far from any
  branch boundary, so IEEE rounding is immaterial for them; `math.log` is
  `Real.log`, and `int` applied to the (positive) squared logarithm is the
  floor.
* The numeric feature converter is an explicit parameter `conv` of the
  pipeline functions (the source calls the module-level
  `convert_numeric_feature`, defined below, whose log branch is
  noncomputable); pipeline theorems quantify over `conv`, hence hold in
  particular for `convert_numeric_feature`.
* A raised Python exception (float/int parse error, `struct.error` on key
  packing, `KeyError`, `ZeroDivisionError`) is `none` in `Option`.
-/

namespace Criteo

set_option maxRecDepth 40000

/-- `self.NUM_FEATS = 39` in `CriteoDataset.__init__`. -/
def NUM_FEATS : Nat := 39

/-- `self.NUM_INT_FEATS = 13` in `CriteoDataset.__init__`. -/
def NUM_INT_FEATS : Nat := 13

/-- Helper for `splitComma`: accumulates the current field (reversed). -/
def splitCommaAux : List Char → List Char → List String
  | [], acc => [String.mk acc.reverse]
  | c :: cs, acc =>
    if c = ',' then String.mk acc.reverse :: splitCommaAux cs []
    else splitCommaAux cs (c :: acc)

/-- Python `line.split(',')`: every comma separates; no collapsing. -/
def splitComma (s : String) : List String := splitCommaAux s.data []

/-- First-match lookup in an association list (Python `dict` indexing;
`none` models `KeyError` / `dict.get` miss). -/
def afind? {α β : Type} [DecidableEq α] : List (α × β) → α → Option β
  | [], _ => none
  | p :: rest, k => if p.1 = k then some p.2 else afind? rest k

/-- Token-count dictionary of one field: `defaultdict(int)`. -/
abbrev TokCnt := List (String × Nat)

/-- Outer dictionary of `__get_feat_mapper`: field index ↦ token counts. -/
abbrev FeatCnts := List (Nat × TokCnt)

/-- One field's vocabulary: token ↦ dense code. -/
abbrev VocabMap := List (String × Nat)

/-- `feat_mapper`: field index ↦ vocabulary. -/
abbrev Vocab := List (Nat × VocabMap)

/-- `defaults`: field index ↦ overflow code. -/
abbrev Defaults := List (Nat × Nat)

/-- `feat_cnts[i][tok] += 1` on the inner `defaultdict(int)`. -/
def bumpTok : TokCnt → String → TokCnt
  | [], t => [(t, 1)]
  | (t0, c) :: rest, t =>
    if t0 = t then (t0, c + 1) :: rest else (t0, c) :: bumpTok rest t

/-- `feat_cnts[i][tok] += 1` on the outer `defaultdict`. -/
def bumpField : FeatCnts → Nat → String → FeatCnts
  | [], i, t => [(i, bumpTok [] t)]
  | (j, m) :: rest, i, t =>
    if j = i then (j, bumpTok m t) :: rest else (j, m) :: bumpField rest i t

/-- Token of field `i` (1-based) of a split line: fields `1..NUM_INT_FEATS`
go through the numeric converter, fields `NUM_INT_FEATS+1..NUM_FEATS` are
the raw strings.  Mirrors the two loops of `__get_feat_mapper` and
`__yield_buffer`. -/
def fieldToken (conv : String → Option String) (values : List String) (i : Nat) :
    Option String :=
  if i ≤ NUM_INT_FEATS then conv (values.getD i "") else some (values.getD i "")

/-- Tokens of `n` consecutive fields starting at field `i`; `none` if the
numeric converter raises on some field. -/
def fieldTokensFrom (conv : String → Option String) (values : List String) :
    Nat → Nat → Option (List String)
  | _, 0 => some []
  | i, n + 1 =>
    (fieldToken conv values i).bind fun t =>
      (fieldTokensFrom conv values (i + 1) n).bind fun ts => some (t :: ts)

/-- Tokens of fields `1..NUM_FEATS` in order (the two counting loops of
`__get_feat_mapper`). -/
def fieldTokens (conv : String → Option String) (values : List String) :
    Option (List String) :=
  fieldTokensFrom conv values 1 NUM_FEATS

/-- Bump fields `i, i+1, ...` with the successive tokens. -/
def bumpAllFrom (fc : FeatCnts) (i : Nat) : List String → FeatCnts
  | [] => fc
  | t :: ts => bumpAllFrom (bumpField fc i t) (i + 1) ts

/-- One line of the counting pass of `__get_feat_mapper`: split on commas,
skip the line if it does not have `NUM_FEATS + 1` fields, otherwise count
every field's token. -/
def countLine (conv : String → Option String) (fc : FeatCnts) (line : String) :
    Option FeatCnts :=
  let values := splitComma line
  if values.length ≠ NUM_FEATS + 1 then some fc
  else (fieldTokens conv values).map (fun toks => bumpAllFrom fc 1 toks)

/-- The full counting pass of `__get_feat_mapper`: skip the header line,
fold `countLine` over the data lines. -/
def featCnts (conv : String → Option String) (lines : List String) :
    Option FeatCnts :=
  (lines.drop 1).foldlM (countLine conv) []

/-- `{feat for feat, c in cnt.items() if c >= self.min_threshold}`:
the kept tokens of one field (first-occurrence order). -/
def keptTokens (threshold : Nat) (cnt : TokCnt) : List String :=
  (cnt.filter (fun p => threshold ≤ p.2)).map Prod.fst

/-- `{feat: idx for idx, feat in enumerate(cnt)}`: enumerate the kept
tokens with codes `0, 1, ...`. -/
def mkVocabMap (threshold : Nat) (cnt : TokCnt) : VocabMap :=
  ((keptTokens threshold cnt).enum).map (fun p => (p.2, p.1))

/-- `__get_feat_mapper`: counting pass, then per-field filtering and
enumeration, then `defaults = {i: len(cnt) for i, cnt in feat_mapper}`. -/
def getFeatMapper (conv : String → Option String) (threshold : Nat)
    (lines : List String) : Option (Vocab × Defaults) :=
  (featCnts conv lines).map (fun fc =>
    let vm : Vocab := fc.map (fun p => (p.1, mkVocabMap threshold p.2))
    (vm, vm.map (fun p => (p.1, p.2.length))))

/-- Decimal digit value of a character, if it is a digit. -/
def digit? (c : Char) : Option Nat :=
  if '0' ≤ c ∧ c ≤ '9' then some (c.toNat - 48) else none

/-- Split a character list into its leading digits and the rest. -/
def takeDigits : List Char → List Nat × List Char
  | [] => ([], [])
  | c :: cs =>
    match digit? c with
    | some d => ((takeDigits cs).1.cons d, (takeDigits cs).2)
    | none => ([], c :: cs)

/-- Value of a big-endian digit list. -/
def natOfDigits (ds : List Nat) : Nat := ds.foldl (fun a d => a * 10 + d) 0

/-- Python `int(s)`: optional sign followed by a nonempty digit string
(whitespace and underscores are not modelled; `none` is `ValueError`). -/
def parseInt (s : String) : Option Int :=
  let go : List Char → Int → Option Int := fun cs sign =>
    match takeDigits cs with
    | (ds, rest) => if ds ≠ [] ∧ rest = [] then some (sign * (natOfDigits ds : Int)) else none
  match s.data with
  | '-' :: cs => go cs (-1)
  | '+' :: cs => go cs 1
  | cs => go cs 1

/-- Encode one well-formed split line exactly as the loop body of
`__yield_buffer` fills `np_array`: slot 0 is the integer-parsed label
(stored in a `np.uint32` slot, hence reduced mod `2^32`), slot `i` for
`i = 1..NUM_FEATS` is `feat_mapper[i].get(token, defaults[i])`.
`none` models a raised `ValueError` (label), `ParseError` (numeric field)
or `KeyError` (missing field in `feat_mapper` / `defaults`);
`encFieldsFrom` is the two encoding loops of `__yield_buffer`. -/
def encFieldsFrom (conv : String → Option String) (vm : Vocab) (dm : Defaults)
    (values : List String) : Nat → Nat → Option (List Nat)
  | _, 0 => some []
  | i, n + 1 => do
    let tok ← fieldToken conv values i
    let fm ← afind? vm i
    let d ← afind? dm i
    let rest ← encFieldsFrom conv vm dm values (i + 1) n
    pure ((afind? fm tok).getD d :: rest)

def encodeLine (conv : String → Option String) (vm : Vocab) (dm : Defaults)
    (values : List String) : Option (List Nat) := do
  let label ← parseInt (values.getD 0 "")
  let codes ← encFieldsFrom conv vm dm values 1 NUM_FEATS
  pure ((label % (2 ^ 32 : Int)).toNat :: codes)

/-- The four big-endian bytes of `idx` (total function). -/
def packKeyT (idx : Nat) : List Nat :=
  [idx / 2 ^ 24 % 256, idx / 2 ^ 16 % 256, idx / 2 ^ 8 % 256, idx % 256]

/-- `struct.pack('>I', idx)`: fails (`struct.error`) outside `[0, 2^32)`. -/
def packKey? (idx : Nat) : Option (List Nat) :=
  if idx < 2 ^ 32 then some (packKeyT idx) else none

/-- One store entry: key bytes and the uint32-array value. -/
abbrev Entry := List Nat × List Nat

/-- Loop of `__yield_buffer` over the data lines: skip malformed lines,
encode well-formed ones, append `(struct.pack('>I', item_idx), record)` to
the buffer, and emit the buffer whenever `item_idx % buffer_size == 0`
after the increment; the final buffer (possibly empty) is always emitted. -/
def yieldAux (conv : String → Option String) (vm : Vocab) (dm : Defaults) (bs : Nat) :
    List String → Nat → List Entry → Option (List (List Entry))
  | [], _, buf => some [buf]
  | line :: rest, idx, buf =>
    let values := splitComma line
    if values.length ≠ NUM_FEATS + 1 then yieldAux conv vm dm bs rest idx buf
    else do
      let arr ← encodeLine conv vm dm values
      let key ← packKey? idx
      if (idx + 1) % bs = 0 then do
        let bufs ← yieldAux conv vm dm bs rest (idx + 1) []
        pure ((buf ++ [(key, arr)]) :: bufs)
      else yieldAux conv vm dm bs rest (idx + 1) (buf ++ [(key, arr)])

/-- `__yield_buffer`: skip the header, run the loop with `item_idx = 0` and
an empty buffer.  `buffer_size = 0` is Python's `ZeroDivisionError`. -/
def yieldBuffer (conv : String → Option String) (vm : Vocab) (dm : Defaults)
    (bs : Nat) (lines : List String) : Option (List (List Entry)) :=
  if bs = 0 then none else yieldAux conv vm dm bs (lines.drop 1) 0 []

/-- The modelled LMDB store: ordered association list of entries. -/
abbrev Store := List Entry

/-- `txn.put(key, value)`: replace the value of an existing key, else
append the new entry. -/
def storePut : Store → List Nat → List Nat → Store
  | [], k, v => [(k, v)]
  | p :: rest, k, v =>
    if p.1 = k then (k, v) :: rest else p :: storePut rest k v

/-- The bytes of the reserved metadata key `b'field_dims'`. -/
def fieldDimsKey : List Nat := [102, 105, 101, 108, 100, 95, 100, 105, 109, 115]

/-- `field_dims = np.zeros(NUM_FEATS); for i, fm in feat_mapper.items():
field_dims[i - 1] = len(fm) + 1`. -/
def fieldDimsOf (vm : Vocab) : List Nat :=
  vm.foldl (fun arr p => arr.set (p.1 - 1) (p.2.length + 1)) (List.replicate NUM_FEATS 0)

/-- `__build_cache` on the lines it actually reads (see
`buildCacheAtPath` for the path handling): recompute the feature mapper,
put the `field_dims` entry, then put every buffered record. -/
def buildCache (conv : String → Option String) (threshold bs : Nat)
    (lines : List String) : Option Store := do
  let fm ← getFeatMapper conv threshold lines
  let st0 := storePut [] fieldDimsKey (fieldDimsOf fm.1)
  let bufs ← yieldBuffer conv fm.1 fm.2 bs lines
  pure (bufs.foldl (fun st buf => buf.foldl (fun st p => storePut st p.1 p.2) st) st0)

/-- The dataset path hardcoded inside both `__build_cache` (`temp_path`)
and `__yield_buffer` (reassignment of its `path` argument). -/
def hardcodedTrainPath : String := "data/criteo/train_df_GDCN.csv"

/-- `__build_cache(path, cache_path)` as called with a caller-supplied
dataset path, over an abstract file system `fs` mapping a path to the
lines of the file stored there.  Both passes open the hardcoded
`train_df_GDCN.csv` path: `__get_feat_mapper` receives `temp_path` and
`__yield_buffer` reassigns its `path` parameter, so `datasetPath` is
never read. -/
def buildCacheAtPath (conv : String → Option String) (threshold bs : Nat)
    (fs : String → List String) (datasetPath : String) : Option Store :=
  buildCache conv threshold bs (fs hardcodedTrainPath)

/-- `txn.stat()['entries']`. -/
def entryCount (st : Store) : Nat := st.length

/-- `self.length = txn.stat()['entries'] - 1`. -/
def readerLength (st : Store) : Nat := entryCount st - 1

/-- `np.frombuffer(txn.get(b'field_dims'), dtype=np.uint32)`. -/
def readerFieldDims (st : Store) : Option (List Nat) := afind? st fieldDimsKey

/-- `__getitem__`: pack the index (raising `struct.error` for a negative
or too-large index) and look the key up (`txn.get` returning `None` makes
`np.frombuffer` raise).  `some` is the full decoded uint32 array
(label followed by the `NUM_FEATS` codes). -/
def readerGet (st : Store) (index : Int) : Option (List Nat) :=
  if 0 ≤ index then (packKey? index.toNat).bind (fun k => afind? st k) else none

/-- The split field lists of the well-formed lines of a line list. -/
def dataRows (ls : List String) : List (List String) :=
  (ls.map splitComma).filter (fun vs => vs.length = NUM_FEATS + 1)

/-- The split field lists of the well-formed data lines (header dropped),
in file order. -/
def wfValues (lines : List String) : List (List String) :=
  dataRows (lines.drop 1)

/-- Unbatched reference writer: the encoded records of the well-formed
data lines paired with their packed keys, starting at index `idx`. -/
def encChain (conv : String → Option String) (vm : Vocab) (dm : Defaults) :
    List String → Nat → Option (List Entry)
  | [], _ => some []
  | line :: rest, idx =>
    let values := splitComma line
    if values.length ≠ NUM_FEATS + 1 then encChain conv vm dm rest idx
    else do
      let arr ← encodeLine conv vm dm values
      let key ← packKey? idx
      let l ← encChain conv vm dm rest (idx + 1)
      pure ((key, arr) :: l)

/-- The encoded records of a list of split rows (`none` as soon as one
row fails to encode). -/
def encRows (conv : String → Option String) (vm : Vocab) (dm : Defaults) :
    List (List String) → Option (List (List Nat))
  | [] => some []
  | vs :: rest => do
    let a ← encodeLine conv vm dm vs
    let l ← encRows conv vm dm rest
    pure (a :: l)

/-- Occurrence count of token `tok` of field `i` in a counting-pass
result (0 if the field or the token is absent). -/
def cntOf (fc : FeatCnts) (i : Nat) (tok : String) : Nat :=
  (afind? ((afind? fc i).getD []) tok).getD 0

/-! Numeric discretizer `convert_numeric_feature`.  Python floats are
modelled as exact rationals; parsing a decimal literal is exact, and the
decimal formatting below agrees with Python's shortest-round-trip `str`
on every value whose decimal expansion is short enough to be exact in
binary64 (all values reachable from the claims); binary64 rounding and
exponent-notation formatting of huge values are outside the model. -/

/-- Exponent part of a float literal: empty means exponent 0; otherwise
`e`/`E`, an optional sign and a nonempty digit string consuming the rest. -/
def parseExp : List Char → Option Int
  | [] => some 0
  | c :: cs =>
    if c = 'e' ∨ c = 'E' then
      match cs with
      | '-' :: cs2 =>
        (fun p : List Nat × List Char =>
          if p.1 ≠ [] ∧ p.2 = [] then some (-(natOfDigits p.1 : Int)) else none) (takeDigits cs2)
      | '+' :: cs2 =>
        (fun p : List Nat × List Char =>
          if p.1 ≠ [] ∧ p.2 = [] then some ((natOfDigits p.1 : Int)) else none) (takeDigits cs2)
      | cs2 =>
        (fun p : List Nat × List Char =>
          if p.1 ≠ [] ∧ p.2 = [] then some ((natOfDigits p.1 : Int)) else none) (takeDigits cs2)
    else none

/-- Mantissa of a float literal: digits, optionally a point and more
digits, at least one digit in total.  Returns the unscaled value, the
number of fraction digits and the unconsumed rest. -/
def parseMantissa (cs : List Char) : Option (Nat × Nat × List Char) :=
  match takeDigits cs with
  | (ds, r1) =>
    match r1 with
    | '.' :: r2 =>
      (fun f : List Nat × List Char =>
        if ds = [] ∧ f.1 = [] then none
        else some (natOfDigits (ds ++ f.1), f.1.length, f.2)) (takeDigits r2)
    | _ => if ds = [] then none else some (natOfDigits ds, 0, r1)

/-- Signless part of `float(s)`: mantissa then optional exponent; the
value is an exact rational `sign * mantissa * 10^exponent`. -/
def parseFloatAux (cs : List Char) (sign : Int) : Option ℚ := do
  let m ← parseMantissa cs
  let e ← parseExp m.2.2
  pure (Rat.divInt (sign * m.1 * 10 ^ e.toNat) (10 ^ (m.2.1 + (-e).toNat)))

/-- Python `float(s)` restricted to finite decimal literals:
optional sign, mantissa, optional exponent (`inf`/`nan`, whitespace and
underscores are not modelled; `none` is `ValueError`). -/
def parseFloat (s : String) : Option ℚ :=
  match s.data with
  | '-' :: cs => parseFloatAux cs (-1)
  | '+' :: cs => parseFloatAux cs 1
  | cs => parseFloatAux cs 1

/-- Little helper: big-endian decimal digits of `n` with explicit fuel. -/
def decDigitsAux : Nat → Nat → List Nat
  | 0, _ => []
  | fuel + 1, n => if n = 0 then [] else decDigitsAux fuel (n / 10) ++ [n % 10]

/-- Big-endian decimal digits of `n` (`[0]` for 0). -/
def decDigits (n : Nat) : List Nat := if n = 0 then [0] else decDigitsAux n n

/-- The character of a decimal digit. -/
def digitChar (d : Nat) : Char := Char.ofNat (48 + d)

/-- Render a digit list. -/
def stringOfDigits (ds : List Nat) : String := String.mk (ds.map digitChar)

/-- Left-pad a digit list with zeros to length `d`. -/
def padDigits (d : Nat) (ds : List Nat) : List Nat :=
  List.replicate (d - ds.length) 0 ++ ds

/-- Strip all factors `p` from `n` (with fuel): returns the multiplicity
and the cofactor. -/
def padicAux (p : Nat) : Nat → Nat → Nat × Nat
  | 0, n => (0, n)
  | fuel + 1, n =>
    if 1 < p ∧ n ≠ 0 ∧ n % p = 0 then
      ((padicAux p fuel (n / p)).1 + 1, (padicAux p fuel (n / p)).2)
    else (0, n)

/-- Least `d` with `den ∣ 10 ^ d`, when `den` has only factors 2 and 5. -/
def tenPow? (den : Nat) : Option Nat :=
  let a := padicAux 2 den den
  let b := padicAux 5 a.2 a.2
  if b.2 = 1 then some (max a.1 b.1) else none

/-- Python `str` of a float value, for exact decimal rationals: minimal
exact decimal expansion with at least one fraction digit (`str(-1.0) =
"-1.0"`, `str(-1.9) = "-1.9"`).  The fallback branch (denominator not of
the form `2^a * 5^b`) is unreachable for values parsed from decimal
literals. -/
def fmtFloat (q : ℚ) : String :=
  match tenPow? q.den with
  | some d0 =>
    let d := max d0 1
    let units := q.num.natAbs * (10 ^ d / q.den)
    (if q.num < 0 then "-" else "") ++ stringOfDigits (decDigits (units / 10 ^ d)) ++ "." ++
      stringOfDigits (padDigits d (decDigits (units % 10 ^ d)))
  | none => toString q

/-- `int(math.log(v) ** 2)` on the real numbers: the squared natural
logarithm is nonnegative, so Python's truncation toward zero is the
floor. -/
noncomputable def lnSqFloor (q : ℚ) : Int := ⌊(Real.log (q : ℝ)) ^ 2⌋

/-- `convert_numeric_feature` (module level, `@lru_cache` memoized —
irrelevant for a pure function): `''` maps to `'NULL'`; otherwise parse
as a float (`ParseError` propagates), take the log bucket above 2 and the
shifted value at or below 2. -/
noncomputable def convert_numeric_feature (val : String) : Option String :=
  if val = "" then some "NULL"
  else
    match parseFloat val with
    | none => none
    | some v => if 2 < v then some (toString (lnSqFloor v)) else some (fmtFloat (v - 2))

/-! Concrete sample data used by the witnesses: a header line and two
well-formed 40-field data lines (label, 13 empty numeric fields, 26
one-letter categorical fields), together with a simple computable
converter to instantiate the `conv` parameter. -/

/-- A converter instance for witnesses: every raw string is its own
token. -/
def idConv : String → Option String := fun s => some s

/-- A 40-field line: label, 13 empty numeric fields, 26 copies of one
categorical value. -/
def mkLine (lbl cat : String) : String :=
  lbl ++ String.join (List.replicate 13 ",") ++ String.join (List.replicate 26 ("," ++ cat))

/-- Sample file: header plus two well-formed data rows. -/
def sampleLines : List String := ["header", mkLine "1" "a", mkLine "0" "b"]

/-- Sample file whose single data row has a categorical value seen only
once (used for the infrequent-token witness). -/
def sampleLinesOnce : List String :=
  ["header", mkLine "1" "a", mkLine "0" "a", "malformed,line"]

/-- A tiny abstract file system for the path-bug theorem: the
caller-supplied path holds one well-formed data row, the hardcoded
training path holds only a header. -/
def sampleFs : String → List String :=
  fun p => if p = "mydata.csv" then ["header", mkLine "1" "a"] else ["header"]

/-- The store built from the sample file (threshold 1). -/
def sampleStore : Store := (buildCache idConv 1 100000 sampleLines).getD []

/-- The sample build's vocabulary. -/
def sampleVocab : Vocab := ((getFeatMapper idConv 1 sampleLines).getD ([], [])).1

/-- The sample build's defaults. -/
def sampleDefaults : Defaults := ((getFeatMapper idConv 1 sampleLines).getD ([], [])).2

/-- The counting-pass result of the second sample file. -/
def sampleCnts : FeatCnts := (featCnts idConv sampleLinesOnce).getD []

/-- The second sample build's vocabulary (threshold 2). -/
def sampleVocab2 : Vocab := ((getFeatMapper idConv 2 sampleLinesOnce).getD ([], [])).1

/-- The second sample build's defaults (threshold 2). -/
def sampleDefaults2 : Defaults := ((getFeatMapper idConv 2 sampleLinesOnce).getD ([], [])).2

/-- Field 14's vocabulary in the second sample build. -/
def sampleFm2 : VocabMap := (afind? sampleVocab2 14).getD []

/-! Basic lemmas: association lists, the store, packed keys. -/

theorem storePut_of_not_mem {st : Store} {k : List Nat} (v : List Nat)
    (h : k ∉ st.map Prod.fst) : storePut st k v = st ++ [(k, v)] := by
  induction st with
  | nil => rfl
  | cons p rest ih =>
    simp only [List.map_cons, List.mem_cons, not_or] at h
    have hne : ¬p.1 = k := fun hc => h.1 hc.symm
    simp [storePut, hne, ih h.2]

theorem foldl_storePut_fresh :
    ∀ (entries : List Entry) (st : Store),
      (∀ e ∈ entries, e.1 ∉ st.map Prod.fst) → (entries.map Prod.fst).Nodup →
      entries.foldl (fun st p => storePut st p.1 p.2) st = st ++ entries := by
  intro entries
  induction entries with
  | nil => intro st _ _; simp
  | cons e es ih =>
    intro st hfresh hnd
    simp only [List.map_cons, List.nodup_cons] at hnd
    have h1 : storePut st e.1 e.2 = st ++ [(e.1, e.2)] :=
      storePut_of_not_mem e.2 (hfresh e (List.mem_cons_self e es))
    have h2 : es.foldl (fun st p => storePut st p.1 p.2) (st ++ [(e.1, e.2)]) =
        (st ++ [(e.1, e.2)]) ++ es := by
      refine ih (st ++ [(e.1, e.2)]) ?_ hnd.2
      intro p hp
      simp only [List.map_append, List.mem_append, List.map_cons, List.map_nil,
        List.mem_singleton, not_or]
      exact ⟨hfresh p (List.mem_cons_of_mem _ hp), by
        intro hc
        exact hnd.1 (hc ▸ List.mem_map_of_mem Prod.fst hp)⟩
    simp only [List.foldl_cons, h1, h2, List.append_assoc, List.singleton_append]

theorem packKeyT_inj {a b : Nat} (ha : a < 2 ^ 32) (hb : b < 2 ^ 32)
    (h : packKeyT a = packKeyT b) : a = b := by
  simp only [packKeyT, List.cons.injEq, and_true] at h
  omega

theorem packKeyT_ne_fieldDimsKey (a : Nat) : packKeyT a ≠ fieldDimsKey := by
  intro h
  have hl : (packKeyT a).length = fieldDimsKey.length := by rw [h]
  simp [packKeyT, fieldDimsKey] at hl

theorem afind?_map_snd {α β γ : Type} [DecidableEq α] (g : β → γ) :
    ∀ (l : List (α × β)) (k : α),
      afind? (l.map (fun p => (p.1, g p.2))) k = (afind? l k).map g := by
  intro l
  induction l with
  | nil => intro k; rfl
  | cons p rest ih =>
    intro k
    by_cases h : p.1 = k <;> simp [afind?, h, ih]

/-! Unfolding equations for the recursive writer functions. -/

theorem dataRows_nil : dataRows [] = [] := rfl

theorem dataRows_cons (line : String) (rest : List String) :
    dataRows (line :: rest) =
      if (splitComma line).length = NUM_FEATS + 1 then splitComma line :: dataRows rest
      else dataRows rest := by
  simp only [dataRows, List.map_cons, List.filter_cons]
  by_cases h : (splitComma line).length = NUM_FEATS + 1 <;> simp [h]

theorem encRows_cons (conv : String → Option String) (vm : Vocab) (dm : Defaults)
    (vs : List String) (rest : List (List String)) :
    encRows conv vm dm (vs :: rest) =
      (encodeLine conv vm dm vs).bind fun a =>
        (encRows conv vm dm rest).bind fun l => some (a :: l) := rfl

theorem encChain_cons (conv : String → Option String) (vm : Vocab) (dm : Defaults)
    (line : String) (rest : List String) (idx : Nat) :
    encChain conv vm dm (line :: rest) idx =
      if (splitComma line).length ≠ NUM_FEATS + 1 then encChain conv vm dm rest idx
      else
        (encodeLine conv vm dm (splitComma line)).bind fun arr =>
          (packKey? idx).bind fun key =>
            (encChain conv vm dm rest (idx + 1)).bind fun l => some ((key, arr) :: l) := rfl

theorem yieldAux_cons (conv : String → Option String) (vm : Vocab) (dm : Defaults)
    (bs : Nat) (line : String) (rest : List String) (idx : Nat) (buf : List Entry) :
    yieldAux conv vm dm bs (line :: rest) idx buf =
      if (splitComma line).length ≠ NUM_FEATS + 1 then yieldAux conv vm dm bs rest idx buf
      else
        (encodeLine conv vm dm (splitComma line)).bind fun arr =>
          (packKey? idx).bind fun key =>
            if (idx + 1) % bs = 0 then
              (yieldAux conv vm dm bs rest (idx + 1) []).bind fun bufs =>
                some ((buf ++ [(key, arr)]) :: bufs)
            else yieldAux conv vm dm bs rest (idx + 1) (buf ++ [(key, arr)]) := rfl

theorem encRows_length (conv : String → Option String) (vm : Vocab) (dm : Defaults) :
    ∀ (ls : List (List String)) (rows : List (List Nat)),
      encRows conv vm dm ls = some rows → rows.length = ls.length := by
  intro ls
  induction ls with
  | nil =>
    intro rows h
    simp only [encRows] at h
    simp [← Option.some_inj.mp h]
  | cons vs rest ih =>
    intro rows h
    rw [encRows_cons] at h
    cases ha : encodeLine conv vm dm vs with
    | none => simp [ha] at h
    | some a =>
      cases hl : encRows conv vm dm rest with
      | none => simp [ha, hl] at h
      | some l =>
        simp only [ha, hl, Option.some_bind, Option.some_inj] at h
        subst h
        simp [ih l hl]

theorem encRows_get (conv : String → Option String) (vm : Vocab) (dm : Defaults) :
    ∀ (ls : List (List String)) (rows : List (List Nat)),
      encRows conv vm dm ls = some rows →
      ∀ j, j < ls.length → encodeLine conv vm dm (ls.getD j []) = rows.get? j := by
  intro ls
  induction ls with
  | nil => intro rows _ j hj; simp at hj
  | cons vs rest ih =>
    intro rows h j hj
    rw [encRows_cons] at h
    cases ha : encodeLine conv vm dm vs with
    | none => simp [ha] at h
    | some a =>
      cases hl : encRows conv vm dm rest with
      | none => simp [ha, hl] at h
      | some l =>
        simp only [ha, hl, Option.some_bind, Option.some_inj] at h
        subst h
        cases j with
        | zero => simp [ha]
        | succ j2 =>
          simp only [List.getD_cons_succ, List.get?_cons_succ]
          exact ih l hl j2 (by simpa using hj)

theorem encChain_eq (conv : String → Option String) (vm : Vocab) (dm : Defaults) :
    ∀ (ls : List String) (idx : Nat) (l : List Entry),
      encChain conv vm dm ls idx = some l →
      ∃ rows, encRows conv vm dm (dataRows ls) = some rows ∧
        (∀ k, k < rows.length → idx + k < 2 ^ 32) ∧
        l = (List.enumFrom idx rows).map (fun p => (packKeyT p.1, p.2)) := by
  intro ls
  induction ls with
  | nil =>
    intro idx l h
    refine ⟨[], rfl, by intro k hk; simp at hk, ?_⟩
    simp only [encChain] at h
    simp [← Option.some_inj.mp h]
  | cons line rest ih =>
    intro idx l h
    rw [encChain_cons] at h
    by_cases hwf : (splitComma line).length = NUM_FEATS + 1
    · simp only [hwf, not_true_eq_false, if_neg, ite_false, if_false] at h
      rw [if_neg (by simp [hwf])] at h
      cases ha : encodeLine conv vm dm (splitComma line) with
      | none => simp [ha] at h
      | some arr =>
        rw [ha] at h
        simp only [Option.some_bind] at h
        cases hik : packKey? idx with
        | none => simp [hik] at h
        | some key =>
          rw [hik] at h
          simp only [Option.some_bind] at h
          cases hc : encChain conv vm dm rest (idx + 1) with
          | none => simp [hc] at h
          | some l2 =>
            rw [hc] at h
            simp only [Option.some_bind, Option.some_inj] at h
            obtain ⟨rows2, hrows2, hbound2, hl2⟩ := ih (idx + 1) l2 hc
            have hidx : idx < 2 ^ 32 ∧ key = packKeyT idx := by
              simp only [packKey?] at hik
              by_cases hi : idx < 2 ^ 32
              · rw [if_pos hi] at hik
                exact ⟨hi, (Option.some_inj.mp hik).symm⟩
              · rw [if_neg hi] at hik
                cases hik
            refine ⟨arr :: rows2, ?_, ?_, ?_⟩
            · rw [dataRows_cons, if_pos hwf, encRows_cons, ha, hrows2]
              rfl
            · intro k hk
              cases k with
              | zero => simpa using hidx.1
              | succ k2 =>
                have := hbound2 k2 (by simpa using hk)
                omega
            · rw [← h, hl2, hidx.2, List.enumFrom_cons]
              simp
    · rw [if_pos hwf] at h
      obtain ⟨rows, hrows, hbound, hl⟩ := ih idx l h
      exact ⟨rows, by rwa [dataRows_cons, if_neg hwf], hbound, hl⟩

theorem yieldAux_flatten (conv : String → Option String) (vm : Vocab) (dm : Defaults)
    (bs : Nat) :
    ∀ (ls : List String) (idx : Nat) (buf : List Entry),
      (yieldAux conv vm dm bs ls idx buf).map List.flatten =
        (encChain conv vm dm ls idx).map (fun l => buf ++ l) := by
  intro ls
  induction ls with
  | nil => intro idx buf; simp [yieldAux, encChain]
  | cons line rest ih =>
    intro idx buf
    rw [yieldAux_cons, encChain_cons]
    by_cases hwf : (splitComma line).length = NUM_FEATS + 1
    · rw [if_neg (by simp [hwf]), if_neg (by simp [hwf])]
      cases ha : encodeLine conv vm dm (splitComma line) with
      | none => simp
      | some arr =>
        simp only [Option.some_bind]
        cases hik : packKey? idx with
        | none => simp
        | some key =>
          simp only [Option.some_bind]
          by_cases hmod : (idx + 1) % bs = 0
          · rw [if_pos hmod]
            cases hy : yieldAux conv vm dm bs rest (idx + 1) [] with
            | none =>
              have := ih (idx + 1) []
              rw [hy] at this
              cases hc : encChain conv vm dm rest (idx + 1) with
              | none => simp
              | some l2 => rw [hc] at this; simp at this
            | some bufs =>
              have := ih (idx + 1) []
              rw [hy] at this
              cases hc : encChain conv vm dm rest (idx + 1) with
              | none => rw [hc] at this; simp at this
              | some l2 =>
                rw [hc] at this
                have hbl : bufs.flatten = l2 := by simpa using this
                simp [hbl]
          · rw [if_neg hmod]
            have := ih (idx + 1) (buf ++ [(key, arr)])
            rw [this]
            cases hc : encChain conv vm dm rest (idx + 1) with
            | none => simp
            | some l2 => simp
    · rw [if_pos hwf, if_pos hwf]
      exact ih idx buf

theorem buildCache_def (conv : String → Option String) (t bs : Nat) (lines : List String) :
    buildCache conv t bs lines =
      (getFeatMapper conv t lines).bind fun fm =>
        (yieldBuffer conv fm.1 fm.2 bs lines).bind fun bufs =>
          some (bufs.foldl (fun st buf => buf.foldl (fun st p => storePut st p.1 p.2) st)
            (storePut [] fieldDimsKey (fieldDimsOf fm.1))) := rfl

theorem afind?_packed (rows : List (List Nat)) :
    ∀ (idx j : Nat), (∀ k, k < rows.length → idx + k < 2 ^ 32) → j < 2 ^ 32 →
      afind? ((List.enumFrom idx rows).map (fun p => (packKeyT p.1, p.2))) (packKeyT j) =
        if idx ≤ j ∧ j < idx + rows.length then rows.get? (j - idx) else none := by
  induction rows with
  | nil =>
    intro idx j _ _
    have hno : ¬(idx ≤ j ∧ j < idx + ([] : List (List Nat)).length) := by
      simp only [List.length_nil]
      omega
    rw [if_neg hno]
    rfl
  | cons r rs ih =>
    intro idx j hbound hj
    rw [List.enumFrom_cons, List.map_cons]
    by_cases hij : idx = j
    · subst hij
      simp only [afind?, if_pos rfl]
      rw [if_pos (by simp)]
      simp
    · have hidx : idx < 2 ^ 32 := by
        have := hbound 0 (by simp)
        omega
      have hkey : ¬(packKeyT idx = packKeyT j) := fun hc => hij (packKeyT_inj hidx hj hc)
      simp only [afind?, if_neg hkey]
      have hbound2 : ∀ k, k < rs.length → (idx + 1) + k < 2 ^ 32 := by
        intro k hk
        have := hbound (k + 1) (by simp; omega)
        omega
      rw [ih (idx + 1) j hbound2 hj]
      simp only [List.length_cons]
      by_cases hle : idx + 1 ≤ j ∧ j < idx + 1 + rs.length
      · rw [if_pos hle, if_pos (by omega)]
        have hsub : j - idx = (j - (idx + 1)) + 1 := by omega
        rw [hsub, List.get?_cons_succ]
      · rw [if_neg hle, if_neg (by omega)]

theorem buildCache_eq {conv : String → Option String} {t bs : Nat} {lines : List String}
    {st : Store} (hb : buildCache conv t bs lines = some st) :
    ∃ vm dm rows,
      getFeatMapper conv t lines = some (vm, dm) ∧
      encRows conv vm dm (wfValues lines) = some rows ∧
      (∀ k, k < rows.length → k < 2 ^ 32) ∧
      st = (fieldDimsKey, fieldDimsOf vm) ::
        (List.enumFrom 0 rows).map (fun p => (packKeyT p.1, p.2)) := by
  rw [buildCache_def] at hb
  cases hm : getFeatMapper conv t lines with
  | none => rw [hm] at hb; cases hb
  | some fm =>
    obtain ⟨vm, dm⟩ := fm
    rw [hm, Option.some_bind] at hb
    have hbs : bs ≠ 0 := by
      intro h0
      rw [h0] at hb
      simp [yieldBuffer] at hb
    cases hy : yieldAux conv vm dm bs (lines.drop 1) 0 [] with
    | none => rw [yieldBuffer, if_neg hbs, hy] at hb; cases hb
    | some bufs =>
      rw [yieldBuffer, if_neg hbs, hy, Option.some_bind, Option.some_inj] at hb
      have hflat := yieldAux_flatten conv vm dm bs (lines.drop 1) 0 []
      rw [hy] at hflat
      cases hc : encChain conv vm dm (lines.drop 1) 0 with
      | none => rw [hc] at hflat; simp at hflat
      | some l =>
        rw [hc] at hflat
        have hbl : bufs.flatten = l := by simpa using hflat
        obtain ⟨rows, hrows, hbound, hl⟩ := encChain_eq conv vm dm (lines.drop 1) 0 l hc
        have hbound0 : ∀ k, k < rows.length → k < 2 ^ 32 := by
          intro k hk
          have := hbound k hk
          omega
        refine ⟨vm, dm, rows, rfl, hrows, hbound0, ?_⟩
        have hkeys :
            ((List.enumFrom 0 rows).map (fun p => (packKeyT p.1, p.2))).map Prod.fst =
              (List.range' 0 rows.length).map packKeyT := by
          rw [List.map_map, ← List.enumFrom_map_fst 0 rows, List.map_map]
          rfl
        have hnd : (((List.enumFrom 0 rows).map (fun p => (packKeyT p.1, p.2))).map Prod.fst).Nodup := by
          rw [hkeys]
          refine List.Nodup.map_on ?_ (List.nodup_range' 0 rows.length)
          intro x hx y hy hxy
          have hxm := List.mem_range'_1.mp hx
          have hym := List.mem_range'_1.mp hy
          exact packKeyT_inj (by have := hbound0 x (by omega); omega)
            (by have := hbound0 y (by omega); omega) hxy
      -- fold the flattened entries into the singleton store
        have hfold :
            bufs.foldl (fun st buf => buf.foldl (fun st p => storePut st p.1 p.2) st)
              (storePut [] fieldDimsKey (fieldDimsOf vm)) =
            (storePut [] fieldDimsKey (fieldDimsOf vm)) ++
              (List.enumFrom 0 rows).map (fun p => (packKeyT p.1, p.2)) := by
          rw [← List.foldl_flatten, hbl, hl]
          refine foldl_storePut_fresh _ _ ?_ hnd
          intro e he
          simp only [List.mem_map] at he
          obtain ⟨p, _, hpe⟩ := he
          show e.1 ∉ [fieldDimsKey]
          simp only [List.mem_singleton]
          rw [← hpe]
          exact packKeyT_ne_fieldDimsKey p.1
        rw [← hb, hfold]
        rfl

theorem readerLength_canonical (vm : Vocab) (rows : List (List Nat)) :
    readerLength ((fieldDimsKey, fieldDimsOf vm) ::
      (List.enumFrom 0 rows).map (fun p => (packKeyT p.1, p.2))) = rows.length := by
  simp [readerLength, entryCount, List.enumFrom_length]

/-- C2: after any successful build, the reader's `length()` (store entry
count minus one) equals exactly the number of data lines of the file read
whose comma-split has exactly `NUM_FEATS + 1 = 40` fields — the header
line and all malformed lines excluded. -/
theorem cache_length_eq_wf_count {conv : String → Option String} {t bs : Nat}
    {lines : List String} {st : Store} (hb : buildCache conv t bs lines = some st) :
    readerLength st = (wfValues lines).length := by
  obtain ⟨vm, dm, rows, _, hrows, _, hst⟩ := buildCache_eq hb
  subst hst
  rw [readerLength_canonical]
  exact encRows_length conv vm dm (wfValues lines) rows hrows

/-- C1: round-trip of the two-pass pipeline.  For any input lines and any
threshold, after a successful build, reading record `j` back through the
reader (`0 ≤ j < length()`) yields exactly the encoded record the record
encoder produces for the `j`-th well-formed data line, using the
vocabulary and defaults produced by the builder. -/
theorem cache_roundtrip {conv : String → Option String} {t bs : Nat}
    {lines : List String} {st : Store} {vm : Vocab} {dm : Defaults}
    (hb : buildCache conv t bs lines = some st)
    (hm : getFeatMapper conv t lines = some (vm, dm)) :
    ∀ j, j < readerLength st →
      readerGet st (j : Int) = encodeLine conv vm dm ((wfValues lines).getD j []) := by
  obtain ⟨vm2, dm2, rows, hm2, hrows, hbound, hst⟩ := buildCache_eq hb
  rw [hm] at hm2
  have hpair := Option.some_inj.mp hm2
  have hvm : vm = vm2 := congrArg Prod.fst hpair
  have hdm : dm = dm2 := congrArg Prod.snd hpair
  subst hvm
  subst hdm
  intro j hj
  rw [hst, readerLength_canonical] at hj
  have hj32 : j < 2 ^ 32 := hbound j hj
  rw [hst, readerGet, if_pos (Int.ofNat_nonneg j)]
  rw [show (j : Int).toNat = j from Int.toNat_natCast j]
  rw [packKey?, if_pos hj32, Option.some_bind]
  simp only [afind?]
  rw [if_neg (fun hc => packKeyT_ne_fieldDimsKey j hc.symm)]
  rw [afind?_packed rows 0 j (by simpa using hbound) hj32,
    if_pos ⟨Nat.zero_le j, by omega⟩]
  simp only [Nat.sub_zero]
  have hjlt : j < (wfValues lines).length := by
    rw [← encRows_length conv vm dm (wfValues lines) rows hrows]
    exact hj
  exact (encRows_get conv vm dm (wfValues lines) rows hrows j hjlt).symm

/-- C8: after any successful build, `get(index)` succeeds exactly when
`0 ≤ index < length()`; a negative index or an index at or beyond
`length()` faults (pack error or missing key) and never returns data. -/
theorem readerGet_bounds {conv : String → Option String} {t bs : Nat}
    {lines : List String} {st : Store} (hb : buildCache conv t bs lines = some st) :
    ∀ index : Int,
      (readerGet st index).isSome ↔ 0 ≤ index ∧ index < (readerLength st : Int) := by
  obtain ⟨vm, dm, rows, _, hrows, hbound, hst⟩ := buildCache_eq hb
  have hlen32 : rows.length ≤ 2 ^ 32 := by
    rcases Nat.eq_zero_or_pos rows.length with h0 | hpos
    · omega
    · have := hbound (rows.length - 1) (by omega)
      omega
  intro index
  rw [hst, readerLength_canonical]
  by_cases hneg : 0 ≤ index
  · rw [readerGet, if_pos hneg]
    have hidx : index = (index.toNat : Int) := (Int.toNat_of_nonneg hneg).symm
    by_cases hm32 : index.toNat < 2 ^ 32
    · rw [packKey?, if_pos hm32, Option.some_bind]
      simp only [afind?]
      rw [if_neg (fun hc => packKeyT_ne_fieldDimsKey index.toNat hc.symm)]
      rw [afind?_packed rows 0 index.toNat (by simpa using hbound) hm32]
      by_cases hin : index.toNat < rows.length
      · rw [if_pos ⟨Nat.zero_le _, by omega⟩]
        simp only [Nat.sub_zero]
        cases hrj : rows.get? index.toNat with
        | none =>
          rw [List.get?_eq_none] at hrj
          omega
        | some r =>
          simp only [Option.isSome_some, true_iff]
          exact ⟨hneg, by omega⟩
      · rw [if_neg (by omega)]
        constructor
        · intro hc
          simp at hc
        · intro hc
          exfalso
          omega
    · rw [packKey?, if_neg hm32]
      rw [Option.none_bind]
      constructor
      · intro hc
        simp at hc
      · intro hc
        exfalso
        omega
  · rw [readerGet, if_neg hneg]
    constructor
    · intro hc
      simp at hc
    · intro hc
      exact absurd hc.1 hneg

/-- C9: batching is observationally pure.  For any input lines and
vocabulary pass, flushing the encoded records in buffers of any size
`bs ≥ 1` (including the trailing-empty-buffer case when the record count
is an exact multiple of `bs`) produces exactly the same store as writing
record-by-record (`bs = 1`). -/
theorem buffered_write_eq_single (conv : String → Option String) (t : Nat)
    (lines : List String) : ∀ bs : Nat, 1 ≤ bs →
    buildCache conv t bs lines = buildCache conv t 1 lines := by
  intro bs hbs
  rw [buildCache_def, buildCache_def]
  cases hm : getFeatMapper conv t lines with
  | none => rfl
  | some fm =>
    rw [Option.some_bind, Option.some_bind]
    have hbs0 : bs ≠ 0 := by omega
    have h1 : (yieldBuffer conv fm.1 fm.2 bs lines).map List.flatten =
        (yieldBuffer conv fm.1 fm.2 1 lines).map List.flatten := by
      rw [yieldBuffer, yieldBuffer, if_neg hbs0, if_neg one_ne_zero]
      rw [yieldAux_flatten, yieldAux_flatten]
    cases hy1 : yieldBuffer conv fm.1 fm.2 bs lines with
    | none =>
      cases hy2 : yieldBuffer conv fm.1 fm.2 1 lines with
      | none => rfl
      | some bufs2 => rw [hy1, hy2] at h1; simp at h1
    | some bufs1 =>
      cases hy2 : yieldBuffer conv fm.1 fm.2 1 lines with
      | none => rw [hy1, hy2] at h1; simp at h1
      | some bufs2 =>
        rw [hy1, hy2] at h1
        have hfl : bufs1.flatten = bufs2.flatten := by simpa using h1
        rw [Option.some_bind, Option.some_bind, Option.some_inj]
        rw [← List.foldl_flatten, ← List.foldl_flatten, hfl]

/-- C10: building from a file holding only a header line succeeds, the
store holds exactly the one metadata entry, `length()` is 0, and every
slot of `field_dims` is 0 (not 1), because no field ever enters the
vocabulary map. -/
theorem header_only_cache (conv : String → Option String) (t bs : Nat) (h : String)
    (hbs : bs ≠ 0) :
    buildCache conv t bs [h] = some [(fieldDimsKey, List.replicate NUM_FEATS 0)] ∧
    entryCount [(fieldDimsKey, List.replicate NUM_FEATS 0)] = 1 ∧
    readerLength [(fieldDimsKey, List.replicate NUM_FEATS 0)] = 0 ∧
    readerFieldDims [(fieldDimsKey, List.replicate NUM_FEATS 0)] =
      some (List.replicate NUM_FEATS 0) ∧
    ∀ x ∈ List.replicate NUM_FEATS (0 : Nat), x = 0 := by
  refine ⟨?_, rfl, rfl, rfl, fun x hx => List.eq_of_mem_replicate hx⟩
  rw [buildCache_def]
  rw [show getFeatMapper conv t [h] = some ([], []) from rfl, Option.some_bind]
  rw [yieldBuffer, if_neg hbs]
  rfl

/-- C3: the cache-writing pass does not read the caller-supplied dataset
path: both passes open the hardcoded training path, so the build result
is independent of the path argument; concretely, with the caller's file
holding one well-formed data row and the hardcoded file holding only a
header, the built cache holds zero records. -/
theorem build_ignores_caller_path :
    (∀ (conv : String → Option String) (t bs : Nat) (fs : String → List String)
        (p q : String), buildCacheAtPath conv t bs fs p = buildCacheAtPath conv t bs fs q) ∧
    readerLength ((buildCacheAtPath idConv 1 100000 sampleFs "mydata.csv").getD []) = 0 ∧
    (wfValues (sampleFs "mydata.csv")).length = 1 := by
  refine ⟨fun conv t bs fs p q => rfl, ?_, ?_⟩ <;> decide

/-! Key-set lemmas for the counting pass (used for C4, C5, C10). -/

theorem fieldTokensFrom_length (conv : String → Option String) (values : List String) :
    ∀ (n i : Nat) (ts : List String),
      fieldTokensFrom conv values i n = some ts → ts.length = n := by
  intro n
  induction n with
  | zero =>
    intro i ts h
    simp only [fieldTokensFrom] at h
    simp [← Option.some_inj.mp h]
  | succ n ih =>
    intro i ts h
    simp only [fieldTokensFrom] at h
    cases ht : fieldToken conv values i with
    | none => rw [ht] at h; cases h
    | some t =>
      rw [ht, Option.some_bind] at h
      cases hts : fieldTokensFrom conv values (i + 1) n with
      | none => rw [hts] at h; cases h
      | some ts2 =>
        rw [hts, Option.some_bind, Option.some_inj] at h
        rw [← h]
        simp [ih (i + 1) ts2 hts]

theorem bumpTok_keys (t : String) :
    ∀ m : TokCnt, (bumpTok m t).map Prod.fst =
      if t ∈ m.map Prod.fst then m.map Prod.fst else m.map Prod.fst ++ [t] := by
  intro m
  induction m with
  | nil => simp [bumpTok]
  | cons p rest ih =>
    obtain ⟨t0, c⟩ := p
    by_cases h : t0 = t
    · subst h
      simp [bumpTok]
    · have hne : ¬t = t0 := fun hc => h hc.symm
      simp only [bumpTok, if_neg h, List.map_cons, ih]
      by_cases hm : t ∈ rest.map Prod.fst <;> simp [hm, hne]

theorem bumpField_keys (i : Nat) (t : String) :
    ∀ fc : FeatCnts, (bumpField fc i t).map Prod.fst =
      if i ∈ fc.map Prod.fst then fc.map Prod.fst else fc.map Prod.fst ++ [i] := by
  intro fc
  induction fc with
  | nil => simp [bumpField]
  | cons p rest ih =>
    obtain ⟨j, m⟩ := p
    by_cases h : j = i
    · subst h
      simp [bumpField]
    · have hne : ¬i = j := fun hc => h hc.symm
      simp only [bumpField, if_neg h, List.map_cons, ih]
      by_cases hm : i ∈ rest.map Prod.fst <;> simp [hm, hne]

theorem bumpField_afind?_self (i : Nat) (t : String) :
    ∀ fc : FeatCnts,
      afind? (bumpField fc i t) i = some (bumpTok ((afind? fc i).getD []) t) := by
  intro fc
  induction fc with
  | nil => simp [bumpField, afind?]
  | cons p rest ih =>
    obtain ⟨j, m⟩ := p
    by_cases h : j = i
    · subst h
      simp [bumpField, afind?]
    · simp only [bumpField, if_neg h, afind?, ih]

theorem bumpField_afind?_ne (i j : Nat) (t : String) (hne : j ≠ i) :
    ∀ fc : FeatCnts, afind? (bumpField fc i t) j = afind? fc j := by
  intro fc
  induction fc with
  | nil =>
    have hne2 : ¬i = j := fun hc => hne hc.symm
    simp [bumpField, afind?, hne2]
  | cons p rest ih =>
    obtain ⟨j0, m⟩ := p
    by_cases h : j0 = i
    · subst h
      simp only [bumpField, if_pos rfl, afind?]
      rw [if_neg (fun hc => hne hc.symm), if_neg (fun hc => hne hc.symm)]
    · simp only [bumpField, if_neg h, afind?]
      by_cases h2 : j0 = j
      · rw [if_pos h2, if_pos h2]
      · rw [if_neg h2, if_neg h2, ih]

theorem bumpAllFrom_keys_full :
    ∀ (toks : List String) (i : Nat) (fc : FeatCnts),
      (∀ k, i ≤ k → k < i + toks.length → k ∈ fc.map Prod.fst) →
      (bumpAllFrom fc i toks).map Prod.fst = fc.map Prod.fst := by
  intro toks
  induction toks with
  | nil => intro i fc _; rfl
  | cons t ts ih =>
    intro i fc hmem
    show (bumpAllFrom (bumpField fc i t) (i + 1) ts).map Prod.fst = fc.map Prod.fst
    have hkeys : (bumpField fc i t).map Prod.fst = fc.map Prod.fst := by
      rw [bumpField_keys, if_pos (hmem i le_rfl (by simp))]
    rw [ih (i + 1) (bumpField fc i t) ?_, hkeys]
    intro k hk1 hk2
    rw [hkeys]
    exact hmem k (by omega) (by simp at hk2 ⊢; omega)

theorem bumpAllFrom_keys_build :
    ∀ (toks : List String) (i : Nat) (fc : FeatCnts), 1 ≤ i →
      fc.map Prod.fst = List.range' 1 (i - 1) →
      (bumpAllFrom fc i toks).map Prod.fst = List.range' 1 (i - 1 + toks.length) := by
  intro toks
  induction toks with
  | nil => intro i fc _ hkeys; simpa using hkeys
  | cons t ts ih =>
    intro i fc hi hkeys
    show (bumpAllFrom (bumpField fc i t) (i + 1) ts).map Prod.fst = _
    have hnotin : i ∉ fc.map Prod.fst := by
      rw [hkeys, List.mem_range'_1]
      omega
    have hkeys2 : (bumpField fc i t).map Prod.fst = List.range' 1 ((i + 1) - 1) := by
      rw [bumpField_keys, if_neg hnotin, hkeys]
      have : (i + 1) - 1 = (i - 1) + 1 := by omega
      rw [this, List.range'_concat]
      have : 1 + 1 * (i - 1) = i := by omega
      rw [this]
    rw [ih (i + 1) (bumpField fc i t) (by omega) hkeys2]
    congr 1
    simp only [List.length_cons]
    omega

theorem countLine_def (conv : String → Option String) (fc : FeatCnts) (line : String) :
    countLine conv fc line =
      if (splitComma line).length ≠ NUM_FEATS + 1 then some fc
      else (fieldTokens conv (splitComma line)).map (fun toks => bumpAllFrom fc 1 toks) := rfl

theorem featCnts_keys (conv : String → Option String) :
    ∀ (ls : List String) (fc0 fc : FeatCnts),
      ls.foldlM (countLine conv) fc0 = some fc →
      (fc0.map Prod.fst = List.range' 1 NUM_FEATS ∨ fc0.map Prod.fst = []) →
      (fc.map Prod.fst = List.range' 1 NUM_FEATS ∨
        (fc.map Prod.fst = fc0.map Prod.fst ∧ dataRows ls = [])) := by
  intro ls
  induction ls with
  | nil =>
    intro fc0 fc h _
    right
    constructor
    · simp only [List.foldlM_nil] at h
      rw [← Option.some_inj.mp h]
    · rfl
  | cons line rest ih =>
    intro fc0 fc h hinv
    rw [List.foldlM_cons] at h
    cases h1 : countLine conv fc0 line with
    | none => rw [h1] at h; cases h
    | some fc1 =>
      rw [h1] at h
      simp only [Option.bind_eq_bind, Option.some_bind] at h
      rw [countLine_def] at h1
      by_cases hwf : (splitComma line).length = NUM_FEATS + 1
      · rw [if_neg (not_not_intro hwf)] at h1
        cases hts : fieldTokens conv (splitComma line) with
        | none => rw [hts] at h1; cases h1
        | some toks =>
          rw [hts, Option.map_some'] at h1
          have htl : toks.length = NUM_FEATS :=
            fieldTokensFrom_length conv (splitComma line) NUM_FEATS 1 toks hts
          have hkeys1 : fc1.map Prod.fst = List.range' 1 NUM_FEATS := by
            rw [← Option.some_inj.mp h1]
            rcases hinv with hfull | hempty
            · rw [bumpAllFrom_keys_full toks 1 fc0 ?_, hfull]
              intro k hk1 hk2
              rw [hfull, List.mem_range'_1]
              omega
            · rw [bumpAllFrom_keys_build toks 1 fc0 le_rfl (by simpa using hempty)]
              simp [htl]
          rcases ih fc1 fc h (Or.inl hkeys1) with hl | ⟨heq, _⟩
          · exact Or.inl hl
          · exact Or.inl (heq.trans hkeys1)
      · rw [if_pos hwf] at h1
        have hfc1 : fc1 = fc0 := (Option.some_inj.mp h1).symm
        subst hfc1
        rcases ih fc1 fc h hinv with hl | ⟨heq, hrows⟩
        · exact Or.inl hl
        · right
          refine ⟨heq, ?_⟩
          rw [dataRows_cons, if_neg hwf, hrows]

theorem afind?_isSome_of_mem {α β : Type} [DecidableEq α] {l : List (α × β)} {k : α}
    (h : k ∈ l.map Prod.fst) : ∃ v, afind? l k = some v := by
  induction l with
  | nil => simp at h
  | cons p rest ih =>
    by_cases hp : p.1 = k
    · exact ⟨p.2, by simp [afind?, hp]⟩
    · simp only [List.map_cons, List.mem_cons] at h
      rcases h with h | h
      · exact absurd h.symm hp
      · obtain ⟨v, hv⟩ := ih h
        exact ⟨v, by simp [afind?, hp, hv]⟩

theorem fieldDims_fold_ne (i : Nat) :
    ∀ (vm : Vocab) (arr : List Nat),
      (∀ p ∈ vm, p.1 ≠ i + 1 ∧ 1 ≤ p.1) →
      (vm.foldl (fun arr p => arr.set (p.1 - 1) (p.2.length + 1)) arr).getD i 0 =
        arr.getD i 0 := by
  intro vm
  induction vm with
  | nil => intro arr _; rfl
  | cons p rest ih =>
    intro arr hp
    have h1 := hp p (List.mem_cons_self p rest)
    show (rest.foldl _ (arr.set (p.1 - 1) (p.2.length + 1))).getD i 0 = _
    rw [ih _ (fun q hq => hp q (List.mem_cons_of_mem p hq))]
    rw [List.getD_eq_getElem?_getD, List.getD_eq_getElem?_getD,
      List.getElem?_set_ne (by omega)]

theorem fieldDims_foldl_getD (i : Nat) :
    ∀ (vm : Vocab) (arr : List Nat) (fm : VocabMap),
      (vm.map Prod.fst).Nodup → (∀ p ∈ vm, 1 ≤ p.1 ∧ p.1 ≤ NUM_FEATS) →
      arr.length = NUM_FEATS → i < NUM_FEATS → afind? vm (i + 1) = some fm →
      (vm.foldl (fun arr p => arr.set (p.1 - 1) (p.2.length + 1)) arr).getD i 0 =
        fm.length + 1 := by
  intro vm
  induction vm with
  | nil => intro arr fm _ _ _ _ hfind; cases hfind
  | cons p rest ih =>
    intro arr fm hnd hbnd hlen hi hfind
    simp only [List.map_cons, List.nodup_cons] at hnd
    simp only [afind?] at hfind
    by_cases hp : p.1 = i + 1
    · rw [if_pos hp] at hfind
      have hfm : fm = p.2 := (Option.some_inj.mp hfind).symm
      subst hfm
      show (rest.foldl _ (arr.set (p.1 - 1) (p.2.length + 1))).getD i 0 = _
      rw [fieldDims_fold_ne i rest _ ?_]
      · rw [List.getD_eq_getElem?_getD, hp, Nat.add_sub_cancel,
          List.getElem?_set_self (by rw [hlen]; exact hi)]
        rfl
      · intro q hq
        refine ⟨fun hc => hnd.1 ?_, (hbnd q (List.mem_cons_of_mem p hq)).1⟩
        rw [← hp] at hc
        rw [← hc]
        exact List.mem_map_of_mem Prod.fst hq
    · rw [if_neg hp] at hfind
      show (rest.foldl _ (arr.set (p.1 - 1) (p.2.length + 1))).getD i 0 = _
      exact ih _ fm hnd.2 (fun q hq => hbnd q (List.mem_cons_of_mem p hq))
        (by rw [List.length_set]; exact hlen) hi hfind

theorem fieldDimsOf_getD {vm : Vocab} {i : Nat} {fm : VocabMap}
    (hnd : (vm.map Prod.fst).Nodup) (hbnd : ∀ p ∈ vm, 1 ≤ p.1 ∧ p.1 ≤ NUM_FEATS)
    (hi : i < NUM_FEATS) (hfind : afind? vm (i + 1) = some fm) :
    (fieldDimsOf vm).getD i 0 = fm.length + 1 :=
  fieldDims_foldl_getD i vm (List.replicate NUM_FEATS 0) fm hnd hbnd
    (List.length_replicate NUM_FEATS 0) hi hfind

theorem getFeatMapper_eq {conv : String → Option String} {t : Nat} {lines : List String}
    {vm : Vocab} {dm : Defaults} (hm : getFeatMapper conv t lines = some (vm, dm)) :
    ∃ fc, featCnts conv lines = some fc ∧
      vm = fc.map (fun p => (p.1, mkVocabMap t p.2)) ∧
      dm = vm.map (fun p => (p.1, p.2.length)) := by
  unfold getFeatMapper at hm
  cases hfc : featCnts conv lines with
  | none => rw [hfc] at hm; cases hm
  | some fc =>
    rw [hfc, Option.map_some'] at hm
    have hm2 : (fc.map (fun p => (p.1, mkVocabMap t p.2)),
        (fc.map (fun p => (p.1, mkVocabMap t p.2))).map (fun p => (p.1, p.2.length))) =
        (vm, dm) := Option.some_inj.mp hm
    rw [Prod.mk.injEq] at hm2
    refine ⟨fc, rfl, hm2.1.symm, ?_⟩
    rw [← hm2.2, hm2.1]

theorem vocab_keys_eq_featCnts_keys (fc : FeatCnts) (t : Nat) :
    (fc.map (fun p => (p.1, mkVocabMap t p.2))).map Prod.fst = fc.map Prod.fst := by
  rw [List.map_map]
  rfl

/-- C4 (amended): for every build whose input holds at least one
well-formed data line, every field `i+1` has a vocabulary entry, the
reader's `field_dims` metadata is the persisted array, and its `i`-th
slot equals that field's vocabulary size plus one (the overflow code). -/
theorem field_dims_eq_vocab_size {conv : String → Option String} {t bs : Nat}
    {lines : List String} {st : Store} {vm : Vocab} {dm : Defaults}
    (hb : buildCache conv t bs lines = some st)
    (hm : getFeatMapper conv t lines = some (vm, dm))
    (hwf : 0 < (wfValues lines).length) :
    ∀ i, i < NUM_FEATS → ∃ fm, afind? vm (i + 1) = some fm ∧
      readerFieldDims st = some (fieldDimsOf vm) ∧
      (fieldDimsOf vm).getD i 0 = fm.length + 1 := by
  obtain ⟨vm2, dm2, rows, hm2, hrows, hbound, hst⟩ := buildCache_eq hb
  rw [hm] at hm2
  have hpair := Option.some_inj.mp hm2
  have hvm : vm = vm2 := congrArg Prod.fst hpair
  subst hvm
  obtain ⟨fc, hfc, hvmeq, hdmeq⟩ := getFeatMapper_eq hm
  have hkeys : vm.map Prod.fst = fc.map Prod.fst := by
    rw [hvmeq, vocab_keys_eq_featCnts_keys]
  have hD := featCnts_keys conv (lines.drop 1) [] fc hfc (Or.inr rfl)
  rcases hD with hfull | ⟨_, hempty⟩
  · intro i hi
    have hmem : (i + 1) ∈ vm.map Prod.fst := by
      rw [hkeys, hfull, List.mem_range'_1]
      omega
    obtain ⟨fm, hfm⟩ := afind?_isSome_of_mem hmem
    refine ⟨fm, hfm, ?_, ?_⟩
    · rw [hst]
      simp [readerFieldDims, afind?]
    · refine fieldDimsOf_getD ?_ ?_ hi hfm
      · rw [hkeys, hfull]
        exact List.nodup_range' 1 NUM_FEATS
      · intro p hp
        have : p.1 ∈ vm.map Prod.fst := List.mem_map_of_mem Prod.fst hp
        rw [hkeys, hfull, List.mem_range'_1] at this
        omega
  · exfalso
    rw [wfValues, hempty] at hwf
    simp at hwf

/-- C4 (counterexample to the unrestricted claim): building from a
header-only file succeeds, but every persisted `field_dims` slot is 0
while the claimed value `|Vocabulary[i+1]| + 1` is 1 (the builder's
vocabulary holds no entry for any field). -/
theorem field_dims_zero_on_empty_build :
    buildCache idConv 10 100000 ["header"] =
      some [(fieldDimsKey, List.replicate NUM_FEATS 0)] ∧
    getFeatMapper idConv 10 ["header"] = some ([], []) ∧
    readerFieldDims [(fieldDimsKey, List.replicate NUM_FEATS 0)] =
      some (List.replicate NUM_FEATS 0) ∧
    (List.replicate NUM_FEATS 0).getD 0 0 = 0 ∧
    ((afind? ([] : Vocab) 1).getD []).length + 1 = 1 ∧ (0 : Nat) ≠ 1 := by
  refine ⟨?_, ?_, ?_, ?_, ?_, ?_⟩ <;> decide

/-! Association-list membership and the counting invariant (for C5). -/

theorem afind?_mem {α β : Type} [DecidableEq α] :
    ∀ {l : List (α × β)} {k : α} {v : β}, afind? l k = some v → (k, v) ∈ l := by
  intro l
  induction l with
  | nil => intro k v h; cases h
  | cons p rest ih =>
    intro k v h
    simp only [afind?] at h
    by_cases hp : p.1 = k
    · rw [if_pos hp] at h
      have hv : p.2 = v := Option.some_inj.mp h
      have hpk : p = (k, v) := by
        obtain ⟨p1, p2⟩ := p
        simp only at hp hv
        rw [Prod.mk.injEq]
        exact ⟨hp, hv⟩
      simp [hpk]
    · rw [if_neg hp] at h
      exact List.mem_cons_of_mem p (ih h)

theorem afind?_eq_some_of_mem {α β : Type} [DecidableEq α] :
    ∀ {l : List (α × β)} {k : α} {v : β},
      (k, v) ∈ l → (l.map Prod.fst).Nodup → afind? l k = some v := by
  intro l
  induction l with
  | nil => intro k v h _; cases h
  | cons p rest ih =>
    intro k v h hnd
    simp only [List.map_cons, List.nodup_cons] at hnd
    rcases List.mem_cons.mp h with h | h
    · rw [← h]
      simp [afind?]
    · have hp : ¬p.1 = k := by
        intro hc
        exact hnd.1 (hc ▸ List.mem_map_of_mem Prod.fst h)
      simp only [afind?, if_neg hp]
      exact ih h hnd.2

theorem afind?_eq_none_iff {α β : Type} [DecidableEq α] :
    ∀ {l : List (α × β)} {k : α}, afind? l k = none ↔ k ∉ l.map Prod.fst := by
  intro l
  induction l with
  | nil => intro k; simp [afind?]
  | cons p rest ih =>
    intro k
    simp only [afind?, List.map_cons, List.mem_cons]
    by_cases hp : p.1 = k
    · simp [hp]
    · rw [if_neg hp, ih]
      constructor
      · intro h hc
        rcases hc with hc | hc
        · exact hp hc.symm
        · exact h hc
      · intro h hc
        exact h (Or.inr hc)

theorem bumpTok_counts (t : String) :
    ∀ m : TokCnt, (∀ q ∈ m, 1 ≤ q.2) → ∀ q ∈ bumpTok m t, 1 ≤ q.2 := by
  intro m
  induction m with
  | nil =>
    intro _ q hq
    simp only [bumpTok, List.mem_singleton] at hq
    simp [hq]
  | cons p rest ih =>
    intro h q hq
    obtain ⟨t0, c⟩ := p
    by_cases h0 : t0 = t
    · rw [show bumpTok ((t0, c) :: rest) t = (t0, c + 1) :: rest by
        simp [bumpTok, h0]] at hq
      rcases List.mem_cons.mp hq with hq | hq
      · simp [hq]
      · exact h q (List.mem_cons_of_mem _ hq)
    · rw [show bumpTok ((t0, c) :: rest) t = (t0, c) :: bumpTok rest t by
        simp [bumpTok, h0]] at hq
      rcases List.mem_cons.mp hq with hq | hq
      · rw [hq]
        exact h (t0, c) (List.mem_cons_self _ _)
      · exact ih (fun q2 hq2 => h q2 (List.mem_cons_of_mem _ hq2)) q hq

theorem bumpTok_wf {m : TokCnt} (t : String)
    (h : (m.map Prod.fst).Nodup ∧ ∀ q ∈ m, 1 ≤ q.2) :
    ((bumpTok m t).map Prod.fst).Nodup ∧ ∀ q ∈ bumpTok m t, 1 ≤ q.2 := by
  refine ⟨?_, bumpTok_counts t m h.2⟩
  rw [bumpTok_keys]
  by_cases hm : t ∈ m.map Prod.fst
  · rw [if_pos hm]; exact h.1
  · rw [if_neg hm]
    simp [List.nodup_append, h.1, hm]

theorem bumpField_wf {fc : FeatCnts} (i : Nat) (t : String)
    (h : ∀ p ∈ fc, ((p.2.map Prod.fst).Nodup ∧ ∀ q ∈ p.2, 1 ≤ q.2)) :
    ∀ p ∈ bumpField fc i t, ((p.2.map Prod.fst).Nodup ∧ ∀ q ∈ p.2, 1 ≤ q.2) := by
  induction fc with
  | nil =>
    intro p hp
    simp only [bumpField, List.mem_singleton] at hp
    subst hp
    exact bumpTok_wf t ⟨List.nodup_nil, by simp⟩
  | cons p0 rest ih =>
    intro p hp
    obtain ⟨j, m⟩ := p0
    by_cases hj : j = i
    · rw [show bumpField ((j, m) :: rest) i t = (j, bumpTok m t) :: rest by
        simp [bumpField, hj]] at hp
      rcases List.mem_cons.mp hp with hp | hp
      · subst hp
        exact bumpTok_wf t (h (j, m) (List.mem_cons_self _ _))
      · exact h p (List.mem_cons_of_mem _ hp)
    · rw [show bumpField ((j, m) :: rest) i t = (j, m) :: bumpField rest i t by
        simp [bumpField, hj]] at hp
      rcases List.mem_cons.mp hp with hp | hp
      · exact h p (hp ▸ List.mem_cons_self _ _)
      · exact ih (fun q hq => h q (List.mem_cons_of_mem _ hq)) p hp

theorem bumpAllFrom_wf :
    ∀ (toks : List String) (i : Nat) (fc : FeatCnts),
      (∀ p ∈ fc, ((p.2.map Prod.fst).Nodup ∧ ∀ q ∈ p.2, 1 ≤ q.2)) →
      ∀ p ∈ bumpAllFrom fc i toks, ((p.2.map Prod.fst).Nodup ∧ ∀ q ∈ p.2, 1 ≤ q.2) := by
  intro toks
  induction toks with
  | nil => intro i fc h; exact h
  | cons t ts ih =>
    intro i fc h
    exact ih (i + 1) (bumpField fc i t) (bumpField_wf i t h)

theorem featCnts_wf (conv : String → Option String) :
    ∀ (ls : List String) (fc0 fc : FeatCnts),
      ls.foldlM (countLine conv) fc0 = some fc →
      (∀ p ∈ fc0, ((p.2.map Prod.fst).Nodup ∧ ∀ q ∈ p.2, 1 ≤ q.2)) →
      ∀ p ∈ fc, ((p.2.map Prod.fst).Nodup ∧ ∀ q ∈ p.2, 1 ≤ q.2) := by
  intro ls
  induction ls with
  | nil =>
    intro fc0 fc h h0
    simp only [List.foldlM_nil] at h
    rw [← Option.some_inj.mp h]
    exact h0
  | cons line rest ih =>
    intro fc0 fc h h0
    rw [List.foldlM_cons] at h
    cases h1 : countLine conv fc0 line with
    | none => rw [h1] at h; cases h
    | some fc1 =>
      rw [h1] at h
      simp only [Option.bind_eq_bind, Option.some_bind] at h
      refine ih fc1 fc h ?_
      rw [countLine_def] at h1
      by_cases hwf : (splitComma line).length = NUM_FEATS + 1
      · rw [if_neg (not_not_intro hwf)] at h1
        cases hts : fieldTokens conv (splitComma line) with
        | none => rw [hts] at h1; cases h1
        | some toks =>
          rw [hts, Option.map_some'] at h1
          rw [← Option.some_inj.mp h1]
          exact bumpAllFrom_wf toks 1 fc0 h0
      · rw [if_pos hwf] at h1
        rw [← Option.some_inj.mp h1]
        exact h0

theorem mkVocabMap_keys (t : Nat) (cnt : TokCnt) :
    (mkVocabMap t cnt).map Prod.fst = keptTokens t cnt := by
  unfold mkVocabMap
  rw [List.map_map]
  rw [show (Prod.fst ∘ fun p : Nat × String => (p.2, p.1)) = Prod.snd from rfl]
  rw [List.enum_map_snd]

theorem mkVocabMap_codes (t : Nat) (cnt : TokCnt) :
    (mkVocabMap t cnt).map Prod.snd = List.range (mkVocabMap t cnt).length := by
  unfold mkVocabMap
  rw [List.map_map]
  rw [show (Prod.snd ∘ fun p : Nat × String => (p.2, p.1)) = Prod.fst from rfl]
  rw [List.enum_map_fst, List.length_map, List.enum_length]

theorem keptTokens_mem (t : Nat) (cnt : TokCnt) (tok : String) :
    tok ∈ keptTokens t cnt ↔ ∃ c, (tok, c) ∈ cnt ∧ t ≤ c := by
  unfold keptTokens
  simp only [List.mem_map, List.mem_filter, decide_eq_true_eq]
  constructor
  · rintro ⟨⟨a, c⟩, ⟨hmem, hc⟩, hfst⟩
    simp only at hfst
    subst hfst
    exact ⟨c, hmem, hc⟩
  · rintro ⟨c, hmem, hc⟩
    exact ⟨(tok, c), ⟨hmem, hc⟩, rfl⟩

theorem keptTokens_mem_count {cnt : TokCnt} (t : Nat) (tok : String)
    (hnd : (cnt.map Prod.fst).Nodup) (hpos : ∀ q ∈ cnt, 1 ≤ q.2) :
    tok ∈ keptTokens t cnt ↔
      (0 < (afind? cnt tok).getD 0 ∧ t ≤ (afind? cnt tok).getD 0) := by
  rw [keptTokens_mem]
  constructor
  · rintro ⟨c, hmem, hc⟩
    rw [afind?_eq_some_of_mem hmem hnd]
    have hc1 := hpos (tok, c) hmem
    simp only [Option.getD_some]
    exact ⟨by omega, hc⟩
  · rintro ⟨h0, ht⟩
    cases hf : afind? cnt tok with
    | none => rw [hf] at h0; simp at h0
    | some c =>
      rw [hf] at ht
      exact ⟨c, afind?_mem hf, by simpa using ht⟩

theorem encFieldsFrom_get (conv : String → Option String) (vm : Vocab) (dm : Defaults)
    (values : List String) :
    ∀ (n i : Nat) (cs : List Nat), encFieldsFrom conv vm dm values i n = some cs →
      ∀ k, k < n → ∃ tok fmv d, fieldToken conv values (i + k) = some tok ∧
        afind? vm (i + k) = some fmv ∧ afind? dm (i + k) = some d ∧
        cs.get? k = some ((afind? fmv tok).getD d) := by
  intro n
  induction n with
  | zero => intro i cs _ k hk; omega
  | succ n ih =>
    intro i cs h k hk
    simp only [encFieldsFrom] at h
    cases ht : fieldToken conv values i with
    | none => rw [ht] at h; cases h
    | some tok =>
      rw [ht] at h
      simp only [Option.bind_eq_bind, Option.some_bind] at h
      cases hfm : afind? vm i with
      | none => rw [hfm] at h; cases h
      | some fmv =>
        rw [hfm] at h
        simp only [Option.some_bind] at h
        cases hd : afind? dm i with
        | none => rw [hd] at h; cases h
        | some d =>
          rw [hd] at h
          simp only [Option.some_bind] at h
          cases hrest : encFieldsFrom conv vm dm values (i + 1) n with
          | none => rw [hrest] at h; cases h
          | some rest =>
            rw [hrest] at h
            simp only [Option.some_bind, Option.pure_def, Option.some_inj] at h
            cases k with
            | zero =>
              refine ⟨tok, fmv, d, by simpa using ht, by simpa using hfm,
                by simpa using hd, ?_⟩
              rw [← h]
              simp
            | succ k2 =>
              obtain ⟨tok2, fmv2, d2, h1, h2, h3, h4⟩ := ih (i + 1) rest hrest k2 (by omega)
              have hshift : i + (k2 + 1) = (i + 1) + k2 := by omega
              refine ⟨tok2, fmv2, d2, by rw [hshift]; exact h1, by rw [hshift]; exact h2,
                by rw [hshift]; exact h3, ?_⟩
              rw [← h, List.get?_cons_succ]
              exact h4

theorem encodeLine_eq {conv : String → Option String} {vm : Vocab} {dm : Defaults}
    {values : List String} {arr : List Nat}
    (h : encodeLine conv vm dm values = some arr) :
    ∃ label codes, parseInt (values.getD 0 "") = some label ∧
      encFieldsFrom conv vm dm values 1 NUM_FEATS = some codes ∧
      arr = (label % (2 ^ 32 : Int)).toNat :: codes := by
  unfold encodeLine at h
  cases hl : parseInt (values.getD 0 "") with
  | none => rw [hl] at h; cases h
  | some label =>
    rw [hl] at h
    simp only [Option.bind_eq_bind, Option.some_bind] at h
    cases hc : encFieldsFrom conv vm dm values 1 NUM_FEATS with
    | none => rw [hc] at h; cases h
    | some codes =>
      rw [hc] at h
      simp only [Option.some_bind, Option.pure_def, Option.some_inj] at h
      exact ⟨label, codes, rfl, rfl, h.symm⟩

/-- C5: for every build corpus and threshold, a token whose occurrence
count in a field is below `min_threshold` (in particular, count zero) is
absent from that field's vocabulary, and encoding any record carrying
that token in that field yields the field's default code; the kept
tokens are exactly those with positive count at or above the threshold,
they carry distinct codes `0..|Vocabulary[i]|-1`, and `Defaults[i]`
equals `|Vocabulary[i]|`, the next unused code. -/
theorem infrequent_token_defaults {conv : String → Option String} {t : Nat}
    {lines : List String} {fc : FeatCnts} {vm : Vocab} {dm : Defaults} {i : Nat}
    {fm : VocabMap}
    (hfc : featCnts conv lines = some fc)
    (hm : getFeatMapper conv t lines = some (vm, dm))
    (hv : afind? vm i = some fm) :
    (∀ tok, tok ∈ fm.map Prod.fst ↔ (0 < cntOf fc i tok ∧ t ≤ cntOf fc i tok)) ∧
    fm.map Prod.snd = List.range fm.length ∧
    (fm.map Prod.fst).Nodup ∧
    afind? dm i = some fm.length ∧
    (∀ tok values arr, cntOf fc i tok < t →
      encodeLine conv vm dm values = some arr →
      fieldToken conv values i = some tok →
      arr.get? i = some fm.length) := by
  obtain ⟨fc2, hfc2, hvmeq, hdmeq⟩ := getFeatMapper_eq hm
  rw [hfc] at hfc2
  have hfceq : fc2 = fc := (Option.some_inj.mp hfc2).symm
  subst hfceq
  have hvfind : afind? vm i = (afind? fc2 i).map (fun cnt => mkVocabMap t cnt) := by
    rw [hvmeq]
    exact afind?_map_snd (fun cnt => mkVocabMap t cnt) fc2 i
  rw [hvfind] at hv
  cases hcnt : afind? fc2 i with
  | none => rw [hcnt] at hv; cases hv
  | some cnt =>
    rw [hcnt, Option.map_some'] at hv
    have hfmeq : fm = mkVocabMap t cnt := (Option.some_inj.mp hv).symm
    have hcntOf : ∀ tok, cntOf fc2 i tok = (afind? cnt tok).getD 0 := by
      intro tok
      rw [cntOf, hcnt]
      rfl
    have hwfcnt := featCnts_wf conv (lines.drop 1) [] fc2 hfc (by simp) (i, cnt)
      (afind?_mem hcnt)
    have hpart1 : ∀ tok, tok ∈ fm.map Prod.fst ↔
        (0 < cntOf fc2 i tok ∧ t ≤ cntOf fc2 i tok) := by
      intro tok
      rw [hfmeq, mkVocabMap_keys, hcntOf tok]
      exact keptTokens_mem_count t tok hwfcnt.1 hwfcnt.2
    have hpart4 : afind? dm i = some fm.length := by
      rw [hdmeq, afind?_map_snd (fun m : VocabMap => m.length) vm i]
      rw [hvfind, hcnt, Option.map_some', Option.map_some', ← hfmeq]
    refine ⟨hpart1, by rw [hfmeq]; exact mkVocabMap_codes t cnt, ?_, hpart4, ?_⟩
    · rw [hfmeq, mkVocabMap_keys]
      exact List.Nodup.sublist ((List.filter_sublist cnt).map Prod.fst) hwfcnt.1
    · intro tok values arr hlow henc htok
      obtain ⟨label, codes, hlabel, hcodes, harr⟩ := encodeLine_eq henc
      have hikeys : i ∈ vm.map Prod.fst := by
        by_contra hcon
        have : afind? vm i = none := afind?_eq_none_iff.mpr hcon
        rw [hvfind, hcnt] at this
        cases this
      have hrange : 1 ≤ i ∧ i ≤ NUM_FEATS := by
        have hD := featCnts_keys conv (lines.drop 1) [] fc2 hfc (Or.inr rfl)
        have hkeys : vm.map Prod.fst = fc2.map Prod.fst := by
          rw [hvmeq, vocab_keys_eq_featCnts_keys]
        rcases hD with hfull | ⟨hempty, _⟩
        · rw [hkeys, hfull, List.mem_range'_1] at hikeys
          omega
        · rw [hkeys, hempty] at hikeys
          cases hikeys
      obtain ⟨tok2, fmv2, d2, h1, h2, h3, h4⟩ :=
        encFieldsFrom_get conv vm dm values NUM_FEATS 1 codes hcodes (i - 1)
          (by omega)
      have hi1 : 1 + (i - 1) = i := by omega
      rw [hi1] at h1 h2 h3
      have htok2 : tok2 = tok := Option.some_inj.mp (h1.symm.trans htok)
      have hfmv2 : fmv2 = fm := by
        rw [hvfind, hcnt, Option.map_some', ← hfmeq] at h2
        exact (Option.some_inj.mp h2).symm
      have hd2 : d2 = fm.length := by
        rw [hpart4] at h3
        exact (Option.some_inj.mp h3).symm
      have habsent : afind? fm tok = none := by
        rw [afind?_eq_none_iff]
        intro hcon
        have := (hpart1 tok).mp hcon
        omega
      rw [harr]
      have hidx : i = (i - 1) + 1 := by omega
      rw [hidx, List.get?_cons_succ, h4, htok2, hfmv2, hd2, habsent]
      rfl

/-! Decimal digit machinery (for the float formatter/parser roundtrip). -/

theorem natOfDigits_foldl (ds : List Nat) :
    ∀ init : Nat, ds.foldl (fun a d => a * 10 + d) init =
      init * 10 ^ ds.length + natOfDigits ds := by
  induction ds with
  | nil => intro init; simp [natOfDigits]
  | cons d ds ih =>
    intro init
    show ds.foldl _ (init * 10 + d) = _
    rw [ih (init * 10 + d)]
    have hnd : natOfDigits (d :: ds) = d * 10 ^ ds.length + natOfDigits ds := by
      show ds.foldl _ (0 * 10 + d) = _
      rw [ih (0 * 10 + d)]
      ring_nf
    rw [hnd]
    simp only [List.length_cons, pow_succ]
    ring

theorem natOfDigits_append (a b : List Nat) :
    natOfDigits (a ++ b) = natOfDigits a * 10 ^ b.length + natOfDigits b := by
  show (a ++ b).foldl _ 0 = _
  rw [List.foldl_append, natOfDigits_foldl b]
  rfl

theorem natOfDigits_replicate_zero (m : Nat) : natOfDigits (List.replicate m 0) = 0 := by
  induction m with
  | zero => rfl
  | succ m ih =>
    show natOfDigits (0 :: List.replicate m 0) = 0
    rw [show (0 : Nat) :: List.replicate m 0 = [0] ++ List.replicate m 0 from rfl]
    rw [natOfDigits_append, ih]
    simp [natOfDigits]

theorem decDigitsAux_zero (fuel : Nat) : decDigitsAux fuel 0 = [] := by
  cases fuel <;> simp [decDigitsAux]

theorem decDigitsAux_val : ∀ (fuel n : Nat), n ≤ fuel →
    natOfDigits (decDigitsAux fuel n) = n := by
  intro fuel
  induction fuel with
  | zero =>
    intro n h
    have : n = 0 := by omega
    subst this
    rfl
  | succ fuel ih =>
    intro n h
    by_cases h0 : n = 0
    · subst h0; rfl
    · simp only [decDigitsAux, if_neg h0]
      rw [natOfDigits_append, ih (n / 10) (by omega)]
      have h1 : natOfDigits [n % 10] = n % 10 := by
        simp [natOfDigits]
      rw [h1]
      simp only [List.length_singleton, pow_one]
      omega

theorem decDigitsAux_lt : ∀ (fuel n : Nat), ∀ d ∈ decDigitsAux fuel n, d < 10 := by
  intro fuel
  induction fuel with
  | zero => intro n d hd; cases hd
  | succ fuel ih =>
    intro n d hd
    by_cases h0 : n = 0
    · subst h0; cases hd
    · simp only [decDigitsAux, if_neg h0, List.mem_append, List.mem_singleton] at hd
      rcases hd with hd | hd
      · exact ih (n / 10) d hd
      · subst hd; omega

theorem decDigitsAux_length : ∀ (fuel n k : Nat), n ≤ fuel → n < 10 ^ k →
    (decDigitsAux fuel n).length ≤ k := by
  intro fuel
  induction fuel with
  | zero =>
    intro n k h _
    have : n = 0 := by omega
    subst this
    simp [decDigitsAux_zero]
  | succ fuel ih =>
    intro n k h hk
    by_cases h0 : n = 0
    · subst h0; simp [decDigitsAux_zero]
    · simp only [decDigitsAux, if_neg h0, List.length_append, List.length_singleton]
      have hk1 : 1 ≤ k := by
        by_contra hc
        have hk0 : k = 0 := by omega
        rw [hk0, pow_zero] at hk
        omega
      have hdiv : n / 10 < 10 ^ (k - 1) := by
        rw [Nat.div_lt_iff_lt_mul (by norm_num)]
        have hpow : 10 ^ (k - 1) * 10 = 10 ^ k := by
          rw [← pow_succ]
          congr 1
          omega
        omega
      have := ih (n / 10) (k - 1) (by omega) hdiv
      omega

theorem decDigits_val (n : Nat) : natOfDigits (decDigits n) = n := by
  by_cases h : n = 0
  · subst h; rfl
  · simp only [decDigits, if_neg h]
    exact decDigitsAux_val n n le_rfl

theorem decDigits_lt (n : Nat) : ∀ d ∈ decDigits n, d < 10 := by
  by_cases h : n = 0
  · subst h
    intro d hd
    have hd0 : d = 0 := by simpa [decDigits] using hd
    omega
  · simp only [decDigits, if_neg h]
    exact decDigitsAux_lt n n

theorem decDigits_ne_nil (n : Nat) : decDigits n ≠ [] := by
  by_cases h : n = 0
  · subst h; simp [decDigits]
  · simp only [decDigits, if_neg h]
    cases hf : n with
    | zero => exact absurd hf h
    | succ m =>
      simp only [decDigitsAux, if_neg h]
      simp

theorem decDigits_length_le {n k : Nat} (hk : 1 ≤ k) (hn : n < 10 ^ k) :
    (decDigits n).length ≤ k := by
  by_cases h : n = 0
  · subst h; simpa [decDigits] using hk
  · simp only [decDigits, if_neg h]
    exact decDigitsAux_length n n k le_rfl hn

theorem digit?_digitChar {d : Nat} (h : d < 10) : digit? (digitChar d) = some d := by
  interval_cases d <;> decide

theorem takeDigits_map_digitChar :
    ∀ (ds : List Nat) (rest : List Char), (∀ d ∈ ds, d < 10) →
      (match rest with | [] => True | c :: _ => digit? c = none) →
      takeDigits (ds.map digitChar ++ rest) = (ds, rest) := by
  intro ds
  induction ds with
  | nil =>
    intro rest _ hrest
    cases rest with
    | nil => rfl
    | cons c r =>
      simp only [List.map_nil, List.nil_append, takeDigits]
      rw [hrest]
  | cons d ds ih =>
    intro rest hd hrest
    simp only [List.map_cons, List.cons_append, takeDigits,
      digit?_digitChar (hd d (List.mem_cons_self d ds)), List.append_eq]
    rw [ih rest (fun x hx => hd x (List.mem_cons_of_mem d hx)) hrest]

/-! Factor-stripping lemmas for `tenPow?`. -/

theorem padicAux_spec (p : Nat) (hp : 1 < p) :
    ∀ (fuel n : Nat), n ≠ 0 → n ≤ fuel →
      n = p ^ (padicAux p fuel n).1 * (padicAux p fuel n).2 ∧
      ¬ p ∣ (padicAux p fuel n).2 ∧ (padicAux p fuel n).2 ≠ 0 := by
  intro fuel
  induction fuel with
  | zero => intro n h0 h1; omega
  | succ fuel ih =>
    intro n h0 h1
    by_cases hdvd : n % p = 0
    · have hcond : 1 < p ∧ n ≠ 0 ∧ n % p = 0 := ⟨hp, h0, hdvd⟩
      simp only [padicAux, if_pos hcond]
      have hpn : p ∣ n := Nat.dvd_of_mod_eq_zero hdvd
      have hnp : n / p ≠ 0 := by
        have hle : p ≤ n := Nat.le_of_dvd (Nat.pos_of_ne_zero h0) hpn
        have : 1 ≤ n / p := (Nat.one_le_div_iff (by omega)).mpr hle
        omega
      have hlt : n / p < n := Nat.div_lt_self (Nat.pos_of_ne_zero h0) hp
      obtain ⟨ha, hb, hc⟩ := ih (n / p) hnp (Nat.lt_succ_iff.mp (lt_of_lt_of_le hlt h1))
      refine ⟨?_, hb, hc⟩
      calc n = p * (n / p) := (Nat.mul_div_cancel' hpn).symm
      _ = p * (p ^ (padicAux p fuel (n / p)).1 * (padicAux p fuel (n / p)).2) := by
          rw [← ha]
      _ = p ^ ((padicAux p fuel (n / p)).1 + 1) * (padicAux p fuel (n / p)).2 := by
          rw [pow_succ]
          ring
    · have hcond : ¬(1 < p ∧ n ≠ 0 ∧ n % p = 0) := by tauto
      simp only [padicAux, if_neg hcond]
      refine ⟨by simp, ?_, h0⟩
      intro hc
      exact hdvd (Nat.mod_eq_zero_of_dvd hc)

theorem tenPow?_complete {den : Nat} (k : Nat) (hden : den ∣ 10 ^ k) (h0 : den ≠ 0) :
    ∃ d, tenPow? den = some d ∧ den ∣ 10 ^ d := by
  obtain ⟨ha, ha2, ha0⟩ := padicAux_spec 2 (by norm_num) den den h0 le_rfl
  set a := (padicAux 2 den den).1 with hadef
  set r1 := (padicAux 2 den den).2 with hr1def
  obtain ⟨hb, hb5, hb0⟩ := padicAux_spec 5 (by norm_num) r1 r1 ha0 le_rfl
  set b := (padicAux 5 r1 r1).1 with hbdef
  set r := (padicAux 5 r1 r1).2 with hrdef
  have hr2 : ¬ 2 ∣ r := by
    intro hc
    have h21 : 2 ∣ r1 := by
      rw [hb]
      exact Dvd.dvd.mul_left hc (5 ^ b)
    exact ha2 h21
  have hrden : r ∣ den := by
    rw [ha, hb]
    exact ⟨2 ^ a * 5 ^ b, by ring⟩
  have hr10 : r ∣ 10 ^ k := hrden.trans hden
  have hcop : r.Coprime (10 ^ k) := by
    have h2 : r.Coprime 2 := Nat.Coprime.symm (Nat.Prime.coprime_iff_not_dvd Nat.prime_two |>.mpr hr2)
    have h5 : r.Coprime 5 := Nat.Coprime.symm (Nat.Prime.coprime_iff_not_dvd Nat.prime_five |>.mpr hb5)
    have h10 : r.Coprime 10 := by
      have : (10 : Nat) = 2 * 5 := by norm_num
      rw [this]
      exact Nat.Coprime.mul_right h2 h5
    exact Nat.Coprime.pow_right k h10
  have hr1' : r = 1 := hcop.eq_one_of_dvd hr10
  refine ⟨max a b, ?_, ?_⟩
  · show tenPow? den = some (max a b)
    unfold tenPow?
    simp only [← hadef, ← hr1def, ← hbdef, ← hrdef]
    rw [if_pos hr1']
  · rw [ha, hb, hr1', mul_one]
    have h10 : (10 : Nat) ^ max a b = 2 ^ max a b * 5 ^ max a b := by
      rw [show (10 : Nat) = 2 * 5 by norm_num, mul_pow]
    rw [h10]
    exact Nat.mul_dvd_mul (pow_dvd_pow 2 (le_max_left a b)) (pow_dvd_pow 5 (le_max_right a b))

/-! Roundtrip of the float formatter through the float parser, for exact
decimal rationals. -/

theorem padDigits_val (d : Nat) (ds : List Nat) :
    natOfDigits (padDigits d ds) = natOfDigits ds := by
  unfold padDigits
  rw [natOfDigits_append, natOfDigits_replicate_zero]
  simp

theorem padDigits_length {d : Nat} {ds : List Nat} (h : ds.length ≤ d) :
    (padDigits d ds).length = d := by
  unfold padDigits
  rw [List.length_append, List.length_replicate]
  omega

theorem padDigits_lt {d : Nat} {ds : List Nat} (h : ∀ x ∈ ds, x < 10) :
    ∀ x ∈ padDigits d ds, x < 10 := by
  intro x hx
  unfold padDigits at hx
  rcases List.mem_append.mp hx with hx | hx
  · have := List.eq_of_mem_replicate hx
    omega
  · exact h x hx

theorem digitChar_ne_sign {x : Nat} (h : x < 10) :
    digitChar x ≠ '-' ∧ digitChar x ≠ '+' := by
  interval_cases x <;> exact ⟨by decide, by decide⟩

theorem stringOfDigits_data (ds : List Nat) :
    (stringOfDigits ds).data = ds.map digitChar := rfl

theorem parseMantissa_digits {A B : List Nat} (hAne : A ≠ [])
    (hAlt : ∀ x ∈ A, x < 10) (hBlt : ∀ x ∈ B, x < 10) :
    parseMantissa (A.map digitChar ++ '.' :: B.map digitChar) =
      some (natOfDigits (A ++ B), B.length, []) := by
  have hB : takeDigits (B.map digitChar) = (B, []) := by
    have hb2 := takeDigits_map_digitChar B [] hBlt trivial
    rw [List.append_nil] at hb2
    exact hb2
  unfold parseMantissa
  rw [takeDigits_map_digitChar A ('.' :: B.map digitChar) hAlt
    (show digit? '.' = none from by decide)]
  show (fun f : List Nat × List Char =>
      if A = [] ∧ f.1 = [] then none
      else some (natOfDigits (A ++ f.1), f.1.length, f.2)) (takeDigits (B.map digitChar)) = _
  rw [hB]
  simp only
  rw [if_neg (by simp [hAne])]

theorem parseFloatAux_digits {A B : List Nat} (hAne : A ≠ [])
    (hAlt : ∀ x ∈ A, x < 10) (hBlt : ∀ x ∈ B, x < 10) (sgn : Int) :
    parseFloatAux (A.map digitChar ++ '.' :: B.map digitChar) sgn =
      some (Rat.divInt (sgn * natOfDigits (A ++ B)) (10 ^ B.length)) := by
  unfold parseFloatAux
  rw [parseMantissa_digits hAne hAlt hBlt]
  simp only [Option.bind_eq_bind, Option.some_bind]
  show (parseExp []).bind _ = _
  rw [show parseExp [] = some 0 from rfl, Option.some_bind]
  simp only [Option.pure_def, Option.some_inj]
  norm_num

theorem parseFloat_fmtFloat {q : ℚ} {k : Nat} (hden : q.den ∣ 10 ^ k) :
    parseFloat (fmtFloat q) = some q := by
  obtain ⟨d0, htp, hdvd0⟩ := tenPow?_complete k hden q.den_pos.ne'
  have hfmt : fmtFloat q = (if q.num < 0 then "-" else "") ++
      stringOfDigits (decDigits (q.num.natAbs * (10 ^ max d0 1 / q.den) / 10 ^ max d0 1)) ++
      "." ++ stringOfDigits (padDigits (max d0 1)
        (decDigits (q.num.natAbs * (10 ^ max d0 1 / q.den) % 10 ^ max d0 1))) := by
    unfold fmtFloat
    rw [htp]
  set d := max d0 1 with hddef
  have hd1 : 1 ≤ d := le_max_right d0 1
  have hdvd : q.den ∣ 10 ^ d := hdvd0.trans (pow_dvd_pow 10 (le_max_left d0 1))
  set c := 10 ^ d / q.den with hcdef
  have hcden : c * q.den = 10 ^ d := Nat.div_mul_cancel hdvd
  have hpow0 : 0 < 10 ^ d := pow_pos (by norm_num) d
  have hc0 : c ≠ 0 := by
    intro hc
    rw [hc, zero_mul] at hcden
    omega
  set units := q.num.natAbs * c with hunitsdef
  set ip := units / 10 ^ d with hipdef
  set fp := units % 10 ^ d with hfpdef
  have hfplt : fp < 10 ^ d := Nat.mod_lt units hpow0
  set A := decDigits ip with hAdef
  set B := padDigits d (decDigits fp) with hBdef
  have hAne : A ≠ [] := decDigits_ne_nil ip
  have hAlt : ∀ x ∈ A, x < 10 := decDigits_lt ip
  have hBlt : ∀ x ∈ B, x < 10 := padDigits_lt (decDigits_lt fp)
  have hBlen : B.length = d := padDigits_length (decDigits_length_le hd1 hfplt)
  have hABval : natOfDigits (A ++ B) = units := by
    rw [natOfDigits_append, hBlen]
    rw [hAdef, hBdef, decDigits_val, padDigits_val, decDigits_val]
    rw [hipdef, hfpdef, Nat.mul_comm]
    exact Nat.div_add_mod units (10 ^ d)
  have hvalue : ∀ sgn : Int, (sgn = 1 ∧ 0 ≤ q.num) ∨ (sgn = -1 ∧ q.num < 0) →
      Rat.divInt (sgn * natOfDigits (A ++ B)) (10 ^ B.length) = q := by
    intro sgn hsgn
    rw [hABval, hBlen]
    have hnum : sgn * (units : Int) = q.num * c := by
      rw [hunitsdef]
      push_cast
      rcases hsgn with ⟨h1, h2⟩ | ⟨h1, h2⟩
      · rw [h1, abs_of_nonneg h2]
        ring
      · rw [h1, abs_of_neg h2]
        ring
    have hden10 : ((10 : Int) ^ d) = (q.den : Int) * (c : Int) := by
      have := congrArg (fun n : Nat => (n : Int)) hcden
      push_cast at this
      rw [← this]
      ring
    rw [hnum, hden10]
    rw [Rat.divInt_mul_right (by exact_mod_cast hc0)]
    exact Rat.num_divInt_den q
  have hdot : ("." : String).data = ['.'] := rfl
  have hdash : ("-" : String).data = ['-'] := rfl
  have hnil : ("" : String).data = [] := rfl
  by_cases hneg : q.num < 0
  · have hdata : (fmtFloat q).data =
        '-' :: (A.map digitChar ++ '.' :: B.map digitChar) := by
      rw [hfmt, if_pos hneg]
      simp only [String.data_append, hdot, hdash, stringOfDigits_data,
        List.append_assoc, List.singleton_append, List.cons_append, List.nil_append]
    unfold parseFloat
    rw [hdata]
    show parseFloatAux (A.map digitChar ++ '.' :: B.map digitChar) (-1) = some q
    rw [parseFloatAux_digits hAne hAlt hBlt]
    exact congrArg some (hvalue (-1) (Or.inr ⟨rfl, hneg⟩))
  · obtain ⟨a0, A2, hA⟩ := List.exists_cons_of_ne_nil hAne
    have ha0 : a0 < 10 := hAlt a0 (by rw [hA]; exact List.mem_cons_self a0 A2)
    have hne := digitChar_ne_sign ha0
    have hdata : (fmtFloat q).data =
        digitChar a0 :: (A2.map digitChar ++ '.' :: B.map digitChar) := by
      rw [hfmt, if_neg hneg, hA]
      simp only [String.data_append, hdot, hnil, stringOfDigits_data, List.map_cons,
        List.append_assoc, List.singleton_append, List.cons_append, List.nil_append]
    have hback : digitChar a0 :: (A2.map digitChar ++ '.' :: B.map digitChar) =
        A.map digitChar ++ '.' :: B.map digitChar := by
      rw [hA]
      simp
    unfold parseFloat
    rw [hdata]
    split
    · next cs heq =>
        exfalso
        exact hne.1 (List.head_eq_of_cons_eq heq)
    · next cs heq =>
        exfalso
        exact hne.2 (List.head_eq_of_cons_eq heq)
    · next =>
        rw [hback, parseFloatAux_digits hAne hAlt hBlt]
        exact congrArg some (hvalue 1 (Or.inl ⟨rfl, not_lt.mp hneg⟩))

theorem parseFloatAux_den {cs : List Char} {sgn : Int} {v : ℚ}
    (h : parseFloatAux cs sgn = some v) : ∃ k, v.den ∣ 10 ^ k := by
  unfold parseFloatAux at h
  cases hm : parseMantissa cs with
  | none => rw [hm] at h; cases h
  | some m =>
    rw [hm] at h
    simp only [Option.bind_eq_bind, Option.some_bind] at h
    cases he : parseExp m.2.2 with
    | none => rw [he] at h; cases h
    | some e =>
      rw [he] at h
      simp only [Option.some_bind, Option.pure_def, Option.some_inj] at h
      refine ⟨m.2.1 + (-e).toNat, ?_⟩
      rw [← h]
      have hdvd := Rat.den_dvd (sgn * m.1 * 10 ^ e.toNat)
        ((10 : Int) ^ (m.2.1 + (-e).toNat))
      have hcast : ((10 : Int) ^ (m.2.1 + (-e).toNat)) =
          ((10 ^ (m.2.1 + (-e).toNat) : Nat) : Int) := by push_cast; ring
      rw [hcast] at hdvd
      exact_mod_cast hdvd

theorem parseFloat_den {s : String} {v : ℚ} (h : parseFloat s = some v) :
    ∃ k, v.den ∣ 10 ^ k := by
  unfold parseFloat at h
  split at h <;> exact parseFloatAux_den h

theorem sub_intCast_den_dvd (q : ℚ) (c : Int) : (q - (c : ℚ)).den ∣ q.den := by
  have heq : q - (c : ℚ) = Rat.divInt (q.num - c * q.den) q.den := by
    rw [Rat.divInt_eq_div]
    push_cast
    rw [sub_div]
    congr 1
    · exact (Rat.num_div_den q).symm
    · rw [mul_div_assoc, div_self (by exact_mod_cast q.den_pos.ne'), mul_one]
  rw [heq]
  have hdvd := Rat.den_dvd (q.num - c * q.den) (q.den : Int)
  exact_mod_cast hdvd

theorem convert_eq_of_parse {s : String} {v : ℚ} (hs : ¬ s = "")
    (hp : parseFloat s = some v) :
    convert_numeric_feature s =
      if 2 < v then some (toString (lnSqFloor v)) else some (fmtFloat (v - 2)) := by
  unfold convert_numeric_feature
  rw [if_neg hs, hp]

theorem convert_eq_of_parse_fail {s : String} (hs : ¬ s = "")
    (hp : parseFloat s = none) : convert_numeric_feature s = none := by
  unfold convert_numeric_feature
  rw [if_neg hs, hp]

theorem parseFloat_one : parseFloat "1.0" = some 1 := by decide

theorem parseFloat_three : parseFloat "3.0" = some 3 := by decide

theorem parseFloat_negOne : parseFloat "-1.0" = some (-1) := by decide

theorem fmtFloat_negOne : fmtFloat (-1) = "-1.0" := by decide

theorem fmtFloat_negThree : fmtFloat (-3) = "-3.0" := by decide

/-- `⌊(ln 3)^2⌋ = 1`: from `e < 3` we get `1 ≤ ln 3`, and from
`3 ≤ e^1.41` (via `e^0.41 ≥ 1.41`) we get `ln 3 ≤ 1.41`, so
`1 ≤ (ln 3)^2 ≤ 1.9881 < 2`. -/
theorem lnSqFloor_three : lnSqFloor 3 = 1 := by
  unfold lnSqFloor
  have h3 : ((3 : ℚ) : ℝ) = 3 := by norm_num
  rw [h3]
  have hlb : 1 ≤ Real.log 3 := by
    rw [Real.le_log_iff_exp_le (by norm_num : (0 : ℝ) < 3)]
    have := Real.exp_one_lt_d9
    linarith
  have hub : Real.log 3 ≤ 1.41 := by
    rw [Real.log_le_iff_le_exp (by norm_num : (0 : ℝ) < 3)]
    have h1 : Real.exp (1.41 : ℝ) = Real.exp 1 * Real.exp 0.41 := by
      rw [← Real.exp_add]
      norm_num
    have h2 : (1.41 : ℝ) ≤ Real.exp 0.41 := by
      have := Real.add_one_le_exp (0.41 : ℝ)
      linarith
    have h4 : (2.7182818283 : ℝ) ≤ Real.exp 1 := le_of_lt Real.exp_one_gt_d9
    have h5 : (3 : ℝ) ≤ 2.7182818283 * 1.41 := by norm_num
    have h6 : (2.7182818283 : ℝ) * 1.41 ≤ Real.exp 1 * Real.exp 0.41 := by
      have hpos : (0 : ℝ) < Real.exp 1 := Real.exp_pos 1
      nlinarith
    rw [h1]
    linarith
  have hsq1 : (1 : ℝ) ≤ (Real.log 3) ^ 2 := by nlinarith
  have hsq2 : (Real.log 3) ^ 2 < 2 := by nlinarith
  rw [Int.floor_eq_iff]
  constructor
  · exact_mod_cast hsq1
  · push_cast
    linarith

theorem conv_one_eval : convert_numeric_feature "1.0" = some "-1.0" := by
  rw [convert_eq_of_parse (by decide) parseFloat_one, if_neg (by norm_num)]
  have h12 : (1 : ℚ) - 2 = -1 := by norm_num
  rw [h12, fmtFloat_negOne]

theorem conv_negOne_eval : convert_numeric_feature "-1.0" = some "-3.0" := by
  rw [convert_eq_of_parse (by decide) parseFloat_negOne, if_neg (by norm_num)]
  have h32 : (-1 : ℚ) - 2 = -3 := by norm_num
  rw [h32, fmtFloat_negThree]

theorem conv_three_eval : convert_numeric_feature "3.0" = some "1" := by
  rw [convert_eq_of_parse (by decide) parseFloat_three, if_pos (by norm_num),
    lnSqFloor_three]
  rfl

/-- C6: the numeric discretizer.  The empty string maps to `"NULL"`; a
nonempty unparseable string raises a parse error; a parsed value above 2
maps to the natural-log bucket `str(int(ln(v)^2))`; a parsed value at or
below 2 maps to `str(v - 2)`; in particular `discretize("3.0") = "1"`,
`discretize("1.0") = "-1.0"`, and `discretize("abc")` is a parse
error. -/
theorem discretizer_spec :
    convert_numeric_feature "" = some "NULL" ∧
    (∀ s : String, s ≠ "" → parseFloat s = none → convert_numeric_feature s = none) ∧
    (∀ (s : String) (v : ℚ), parseFloat s = some v → 2 < v →
      convert_numeric_feature s = some (toString (lnSqFloor v))) ∧
    (∀ (s : String) (v : ℚ), parseFloat s = some v → ¬ 2 < v →
      convert_numeric_feature s = some (fmtFloat (v - 2))) ∧
    convert_numeric_feature "3.0" = some "1" ∧
    convert_numeric_feature "1.0" = some "-1.0" ∧
    convert_numeric_feature "abc" = none := by
  have hne : ∀ (s : String) (v : ℚ), parseFloat s = some v → s ≠ "" := by
    intro s v hp hc
    rw [hc] at hp
    cases hp
  refine ⟨rfl, ?_, ?_, ?_, conv_three_eval, conv_one_eval, ?_⟩
  · intro s hs hp
    exact convert_eq_of_parse_fail hs hp
  · intro s v hp hv
    rw [convert_eq_of_parse (hne s v hp) hp, if_pos hv]
  · intro s v hp hv
    rw [convert_eq_of_parse (hne s v hp) hp, if_neg hv]
  · exact convert_eq_of_parse_fail (by decide) (by decide)

/-- C6 witness: the log branch of the discretizer at the parsed value
42. -/
theorem discretizer_spec_witness :
    convert_numeric_feature "42" = some (toString (lnSqFloor 42)) :=
  discretizer_spec.2.2.1 "42" 42 (by decide) (by norm_num)

/-- C7 (counterexample): the discretizer is not idempotent;
`discretize("1.0") = "-1.0"` but a second application gives `"-3.0"`. -/
theorem discretize_not_idempotent :
    (convert_numeric_feature "1.0").bind convert_numeric_feature ≠
      convert_numeric_feature "1.0" := by
  rw [conv_one_eval, Option.some_bind, conv_negOne_eval]
  intro hc
  have := Option.some_inj.mp hc
  simp at this

/-- C7 (amended): on every raw string that parses to a value `v ≤ 2`, the
discretizer's output token re-parses and a second application lands in a
strictly different bucket: `discretize(discretize(s)) = str(v - 4)`,
which differs from `discretize(s) = str(v - 2)`. -/
theorem discretize_double_shift :
    ∀ (s : String) (v : ℚ), parseFloat s = some v → v ≤ 2 →
      (convert_numeric_feature s).bind convert_numeric_feature =
        some (fmtFloat (v - 4)) ∧ fmtFloat (v - 4) ≠ fmtFloat (v - 2) := by
  intro s v hp hv
  obtain ⟨k, hden⟩ := parseFloat_den hp
  have hden2 : (v - 2).den ∣ 10 ^ k := by
    have h2 : v - 2 = v - ((2 : Int) : ℚ) := by norm_num
    rw [h2]
    exact (sub_intCast_den_dvd v 2).trans hden
  have hden4 : (v - 4).den ∣ 10 ^ k := by
    have h4 : v - 4 = v - ((4 : Int) : ℚ) := by norm_num
    rw [h4]
    exact (sub_intCast_den_dvd v 4).trans hden
  have hne : ¬ s = "" := by
    intro hc
    rw [hc] at hp
    cases hp
  have hrt2 : parseFloat (fmtFloat (v - 2)) = some (v - 2) := parseFloat_fmtFloat hden2
  have hrt4 : parseFloat (fmtFloat (v - 4)) = some (v - 4) := parseFloat_fmtFloat hden4
  have hfmt_ne : ¬ fmtFloat (v - 2) = "" := by
    intro hc
    rw [hc] at hrt2
    cases hrt2
  have hstep1 : convert_numeric_feature s = some (fmtFloat (v - 2)) := by
    rw [convert_eq_of_parse hne hp, if_neg (by linarith)]
  have hstep2 : convert_numeric_feature (fmtFloat (v - 2)) = some (fmtFloat (v - 4)) := by
    rw [convert_eq_of_parse hfmt_ne hrt2, if_neg (by linarith)]
    have : v - 2 - 2 = v - 4 := by ring
    rw [this]
  refine ⟨by rw [hstep1, Option.some_bind, hstep2], ?_⟩
  intro hc
  have : some (v - 4) = some (v - 2) := by
    rw [← hrt4, ← hrt2, hc]
  have hv42 : v - 4 = v - 2 := Option.some_inj.mp this
  have : (4 : ℚ) = 2 := by linarith
  norm_num at this

/-- C7 amended witness: the shift at `s = "1.0"`, `v = 1`. -/
theorem discretize_double_shift_witness :
    (convert_numeric_feature "1.0").bind convert_numeric_feature =
      some (fmtFloat ((1 : ℚ) - 4)) ∧ fmtFloat ((1 : ℚ) - 4) ≠ fmtFloat ((1 : ℚ) - 2) :=
  discretize_double_shift "1.0" 1 (by decide) (by norm_num)

/-- C2 witness: the sample build has exactly 2 records. -/
theorem cache_length_eq_wf_count_witness :
    readerLength sampleStore = (wfValues sampleLines).length :=
  @cache_length_eq_wf_count idConv 1 100000 sampleLines sampleStore (by decide)

/-- C1 witness: record 0 of the sample build reads back as its encoding. -/
theorem cache_roundtrip_witness :
    readerGet sampleStore ((0 : Nat) : Int) =
      encodeLine idConv sampleVocab sampleDefaults ((wfValues sampleLines).getD 0 []) :=
  @cache_roundtrip idConv 1 100000 sampleLines sampleStore sampleVocab sampleDefaults
    (by decide) (by decide) 0 (by decide)

/-- C8 witness: index 2 of the 2-record sample build is out of bounds. -/
theorem readerGet_bounds_witness :
    (readerGet sampleStore 2).isSome ↔
      (0 : Int) ≤ 2 ∧ (2 : Int) < (readerLength sampleStore : Int) :=
  @readerGet_bounds idConv 1 100000 sampleLines sampleStore (by decide) 2

/-- C9 witness: buffer size 2 (an exact multiple of the record count)
produces the same store as record-by-record writing. -/
theorem buffered_write_eq_single_witness :
    buildCache idConv 1 2 sampleLines = buildCache idConv 1 1 sampleLines :=
  buffered_write_eq_single idConv 1 sampleLines 2 (by norm_num)

/-- C10 witness: a concrete header-only build. -/
theorem header_only_cache_witness :
    buildCache idConv 10 100000 ["only,a,header"] =
      some [(fieldDimsKey, List.replicate NUM_FEATS 0)] ∧
    entryCount [(fieldDimsKey, List.replicate NUM_FEATS 0)] = 1 ∧
    readerLength [(fieldDimsKey, List.replicate NUM_FEATS 0)] = 0 ∧
    readerFieldDims [(fieldDimsKey, List.replicate NUM_FEATS 0)] =
      some (List.replicate NUM_FEATS 0) ∧
    ∀ x ∈ List.replicate NUM_FEATS (0 : Nat), x = 0 :=
  header_only_cache idConv 10 100000 "only,a,header" (by norm_num)

/-- C4 witness: in the sample build, slot 0 of `field_dims` is the size
of field 1's vocabulary plus one. -/
theorem field_dims_eq_vocab_size_witness :
    readerFieldDims sampleStore = some (fieldDimsOf sampleVocab) ∧
    (fieldDimsOf sampleVocab).getD 0 0 =
      ((afind? sampleVocab (0 + 1)).getD []).length + 1 := by
  obtain ⟨fm, h1, h2, h3⟩ :=
    @field_dims_eq_vocab_size idConv 1 100000 sampleLines sampleStore sampleVocab
      sampleDefaults (by decide) (by decide) (by decide) 0 (by decide)
  refine ⟨h2, ?_⟩
  rw [h1, h3]
  rfl

/-- C5 witness: with threshold 2, the never-seen token `"b"` of field 14
is not in the vocabulary (its count 0 is neither positive nor at the
threshold). -/
theorem infrequent_token_defaults_witness :
    "b" ∈ sampleFm2.map Prod.fst ↔
      (0 < cntOf sampleCnts 14 "b" ∧ 2 ≤ cntOf sampleCnts 14 "b") := by
  have h := @infrequent_token_defaults idConv 2 sampleLinesOnce sampleCnts sampleVocab2
    sampleDefaults2 14 sampleFm2 (by decide) (by decide) (by decide)
  exact h.1 "b"

end Criteo
